import Mathlib

/-!
Verification of the PumpDotFun SDK pricing core.

This file shallowly embeds the arithmetic core of the repository
(`pumpdotfun_sdk/amm.py`, `pumpdotfun_sdk/bonding_curve.py`,
`pumpdotfun_sdk/utils.py`, `pumpdotfun_sdk/events.py`) in Lean.

Conventions:
- Python integers are modelled as `Int`; Python `//` (floor division) is
  `Int.fdiv`, Python `%` is `Int.emod`.
- Python `float` values (IEEE-754 binary64) are modelled exactly: a finite
  double is a dyadic rational, carried as a mantissa/exponent pair `Fp64`
  with exact rational value `val`.  Every float operation of the source is
  one exact rational operation followed by `roundQ`, the round-to-nearest,
  ties-to-even rounding of a rational to binary64 precision, which is how
  IEEE-754 defines the operations.  Overflow to infinity and signed zeros
  are not modelled; all theorems and evaluations below stay far inside the
  finite range, where this model agrees with the Python semantics.
- Python exceptions are modelled with `Except`; the distinct `PumpFunError`
  message strings of the source are mapped to the constructors of `PumpErr`.
-/

set_option maxRecDepth 40000

-- ===========================================================================
-- Generic integer helpers used by the binary64 rounding model
-- ===========================================================================

/-- Fuel-driven floor of the base-2 logarithm: `ilog2Aux fuel n` halves `n`
until it drops below 2, consuming one unit of fuel per step. -/
def ilog2Aux : Nat → Nat → Nat
  | 0, _ => 0
  | fuel+1, n => if 2 ≤ n then ilog2Aux fuel (n / 2) + 1 else 0

/-- Floor of the base-2 logarithm of `n` (for `n ≥ 1`); `n` itself is always
enough fuel since `n < 2 ^ n`. -/
def ilog2 (n : Nat) : Nat := ilog2Aux n n

/-- Round `P / Q` to the nearest natural number, ties to even (`Q > 0`). -/
def rdivNE (P Q : Nat) : Nat :=
  let d := P / Q
  let r := P % Q
  if 2 * r < Q then d
  else if Q < 2 * r then d + 1
  else if d % 2 = 0 then d else d + 1

/-- Decides `2 ^ e ≤ p / q` for naturals `p q ≥ 1` and an integer `e`. -/
def pow2le (e : Int) (p q : Nat) : Bool :=
  if 0 ≤ e then decide (q * 2 ^ e.toNat ≤ p) else decide (q ≤ p * 2 ^ (-e).toNat)

/-- Binary exponent of the positive rational `p / q`: the unique `e` with
`2 ^ e ≤ p / q < 2 ^ (e + 1)` (for `p, q ≥ 1`). -/
def frexpE (p q : Nat) : Int :=
  let e0 : Int := (ilog2 p : Int) - (ilog2 q : Int)
  if pow2le e0 p q then e0 else e0 - 1

/-- Mantissa and exponent of the IEEE-754 binary64 value nearest to `p / q`
(ties to even), for `p, q ≥ 1`; the value represented is `m * 2 ^ ex`.
Normal numbers get 53 significant bits; below `2 ^ (-1022)` the result is
rounded onto the fixed subnormal grid `2 ^ (-1074)`. -/
def roundPosRat (p q : Nat) : Nat × Int :=
  let e := frexpE p q
  if e < -1022 then
    (rdivNE (p * 2 ^ 1074) q, -1074)
  else if e ≤ 52 then
    (rdivNE (p * 2 ^ (52 - e).toNat) q, e - 52)
  else
    (rdivNE p (q * 2 ^ (e - 52).toNat), e - 52)

/-- An IEEE-754 binary64 value, represented exactly as `m * 2 ^ ex`. -/
structure Fp64 where
  m : Int
  ex : Int
deriving DecidableEq

/-- Exact rational value of a double. -/
def val (f : Fp64) : ℚ := (f.m : ℚ) * 2 ^ f.ex

/-- Round the rational `p / q` (with `q > 0` at every call site) to the
nearest binary64 value, ties to even. -/
def roundQ (p q : Int) : Fp64 :=
  if p = 0 then ⟨0, 0⟩
  else if 0 < p then
    let r := roundPosRat p.toNat q.toNat
    ⟨(r.1 : Int), r.2⟩
  else
    let r := roundPosRat (-p).toNat q.toNat
    ⟨-(r.1 : Int), r.2⟩

/-- Round the dyadic rational `m * 2 ^ e` to binary64. -/
def roundDyadic (m e : Int) : Fp64 :=
  if 0 ≤ e then roundQ (m * 2 ^ e.toNat) 1 else roundQ m (2 ^ (-e).toNat)

/-- Write the value of `f` as a fraction with positive denominator. -/
def toFrac (f : Fp64) : Int × Int :=
  if 0 ≤ f.ex then (f.m * 2 ^ f.ex.toNat, 1) else (f.m, 2 ^ (-f.ex).toNat)

/-- Python `float(n)`: convert an int to binary64 (rounding to nearest). -/
def float_of_int (n : Int) : Fp64 := roundQ n 1

/-- Python `a / b` on ints (true division): the correctly rounded quotient;
`b > 0` at every call site of the embedded code. -/
def fdivInt (a b : Int) : Fp64 := roundQ a b

/-- Float subtraction `1.0 - f`: exact difference, then one rounding. -/
def fsub_one (f : Fp64) : Fp64 :=
  let pq := toFrac f
  roundQ (pq.2 - pq.1) pq.2

/-- Float addition `1.0 + f`: exact sum, then one rounding. -/
def fadd_one (f : Fp64) : Fp64 :=
  let pq := toFrac f
  roundQ (pq.2 + pq.1) pq.2

/-- Float multiplication: exact product, then one rounding. -/
def fmul (a b : Fp64) : Fp64 := roundDyadic (a.m * b.m) (a.ex + b.ex)

/-- Float subtraction: exact difference, then one rounding. -/
def fsub (a b : Fp64) : Fp64 :=
  let e := min a.ex b.ex
  roundDyadic (a.m * 2 ^ (a.ex - e).toNat - b.m * 2 ^ (b.ex - e).toNat) e

/-- Float absolute value (exact). -/
def fabs (f : Fp64) : Fp64 := ⟨|f.m|, f.ex⟩

/-- Float division `a / b`; `b` has positive value at every call site. -/
def fdivF (a b : Fp64) : Fp64 :=
  let d := a.ex - b.ex
  if 0 ≤ d then roundQ (a.m * 2 ^ d.toNat) b.m else roundQ a.m (b.m * 2 ^ (-d).toNat)

/-- Decides `val f ≤ n` for an integer `n`, by cross-multiplication. -/
def fleInt (f : Fp64) (n : Int) : Bool :=
  if 0 ≤ f.ex then decide (f.m * 2 ^ f.ex.toNat ≤ n) else decide (f.m ≤ n * 2 ^ (-f.ex).toNat)

/-- Python `int(f)` on a float: truncation toward zero. -/
def ftrunc (f : Fp64) : Int :=
  if 0 ≤ f.ex then f.m * 2 ^ f.ex.toNat
  else if 0 ≤ f.m then f.m / 2 ^ (-f.ex).toNat
  else -((-f.m) / 2 ^ (-f.ex).toNat)

-- ===========================================================================
-- Error taxonomy (the source raises PumpFunError with distinct messages)
-- ===========================================================================

/-- Failure modes of the embedded code.  The constructors correspond to the
`PumpFunError` messages of the source: `invalidAmount` to "Input amount must
be positive" / "Output amount must be positive" / "SOL amount must be
positive" / "Token amount must be positive"; `invalidReserves` to "Reserves
must be positive"; `insufficientOutput` to "Insufficient output amount";
`outputExceedsReserves` to "Output amount exceeds reserves";
`calculationError` to "Invalid token amount calculated" / "Invalid SOL
amount calculated"; `zeroDivision` to an uncaught Python ZeroDivisionError. -/
inductive PumpErr where
  | invalidAmount
  | invalidReserves
  | insufficientOutput
  | outputExceedsReserves
  | calculationError
  | zeroDivision
deriving DecidableEq

instance instDecEqExceptPump {α : Type} [DecidableEq α] : DecidableEq (Except PumpErr α) := fun a b =>
  match a, b with
  | .ok x, .ok y =>
    if h : x = y then isTrue (by rw [h]) else isFalse (by intro hh; cases hh; exact h rfl)
  | .ok _, .error _ => isFalse (by intro hh; cases hh)
  | .error _, .ok _ => isFalse (by intro hh; cases hh)
  | .error e, .error f =>
    if h : e = f then isTrue (by rw [h]) else isFalse (by intro hh; cases hh; exact h rfl)

-- ===========================================================================
-- AMMCalculator (amm.py)
-- ===========================================================================

/-- Class constant `AMMCalculator.FEE_BASIS_POINTS` (1% fee). -/
def FEE_BASIS_POINTS : Int := 100

/-- Line 62 / 106 of amm.py: `fee_bp = fee_basis_points or FEE_BASIS_POINTS`.
Both `None` and `0` are falsy in Python, so an explicit fee of `0` also
falls back to the class default of 100. -/
def effective_fee (fee_basis_points : Option Int) : Int :=
  match fee_basis_points with
  | none => FEE_BASIS_POINTS
  | some f => if f = 0 then FEE_BASIS_POINTS else f

/-- AMMCalculator.get_amount_out (amm.py lines 37-76). -/
def get_amount_out (amount_in reserve_in reserve_out : Int)
    (fee_basis_points : Option Int) : Except PumpErr Int :=
  if amount_in ≤ 0 then .error .invalidAmount
  else if reserve_in ≤ 0 ∨ reserve_out ≤ 0 then .error .invalidReserves
  else
    let fee_bp := effective_fee fee_basis_points
    let amount_in_with_fee := amount_in * (10000 - fee_bp)
    let numerator := amount_in_with_fee * reserve_out
    let denominator := reserve_in * 10000 + amount_in_with_fee
    let amount_out := numerator.fdiv denominator
    if amount_out ≤ 0 then .error .insufficientOutput
    else .ok amount_out

/-- AMMCalculator.get_amount_in (amm.py lines 78-114). -/
def get_amount_in (amount_out reserve_in reserve_out : Int)
    (fee_basis_points : Option Int) : Except PumpErr Int :=
  if amount_out ≤ 0 then .error .invalidAmount
  else if reserve_in ≤ 0 ∨ reserve_out ≤ 0 then .error .invalidReserves
  else if reserve_out ≤ amount_out then .error .outputExceedsReserves
  else
    let fee_bp := effective_fee fee_basis_points
    let numerator := reserve_in * amount_out * 10000
    let denominator := (reserve_out - amount_out) * (10000 - fee_bp)
    let amount_in := numerator.fdiv denominator + 1
    .ok amount_in

-- ===========================================================================
-- BondingCurveCalculator (bonding_curve.py)
-- ===========================================================================

/-- Class constant: 30 SOL in lamports. -/
def VIRTUAL_SOL_RESERVES : Int := 30000000000

/-- Class constant: virtual token reserves. -/
def VIRTUAL_TOKEN_RESERVES : Int := 1073000000000000

/-- BondingCurveCalculator.get_buy_price (bonding_curve.py lines 20-59). -/
def get_buy_price (sol_amount real_sol_reserves real_token_reserves : Int) :
    Except PumpErr Int :=
  if sol_amount ≤ 0 then .error .invalidAmount
  else
    let virtual_sol := VIRTUAL_SOL_RESERVES + real_sol_reserves
    let virtual_token := VIRTUAL_TOKEN_RESERVES + real_token_reserves
    let k := virtual_sol * virtual_token
    let new_sol := virtual_sol + sol_amount
    let new_token := k.fdiv new_sol
    let tokens_out := virtual_token - new_token
    if tokens_out ≤ 0 then .error .calculationError
    else .ok tokens_out

/-- BondingCurveCalculator.get_sell_price (bonding_curve.py lines 61-100). -/
def get_sell_price (token_amount real_sol_reserves real_token_reserves : Int) :
    Except PumpErr Int :=
  if token_amount ≤ 0 then .error .invalidAmount
  else
    let virtual_sol := VIRTUAL_SOL_RESERVES + real_sol_reserves
    let virtual_token := VIRTUAL_TOKEN_RESERVES + real_token_reserves
    let k := virtual_sol * virtual_token
    let new_token := virtual_token + token_amount
    let new_sol := k.fdiv new_token
    let sol_out := virtual_sol - new_sol
    if sol_out ≤ 0 then .error .calculationError
    else .ok sol_out

-- ===========================================================================
-- Slippage (utils.calculate_slippage_amount, lines 137-158, and the
-- identical BondingCurveCalculator.apply_slippage_tolerance, lines 158-182)
-- ===========================================================================

/-- utils.calculate_slippage_amount: `slippage_multiplier = bps / 10000` is a
float true division; the bound is `int(amount * (1 - multiplier))` in
Minimum mode and `int(amount * (1 + multiplier))` in Maximum mode, where the
int factor is first converted to binary64 and each float operation rounds. -/
def calculate_slippage_amount (expected_amount slippage_basis_points : Int)
    (is_minimum : Bool) : Int :=
  let slippage_multiplier := fdivInt slippage_basis_points 10000
  if is_minimum then
    ftrunc (fmul (float_of_int expected_amount) (fsub_one slippage_multiplier))
  else
    ftrunc (fmul (float_of_int expected_amount) (fadd_one slippage_multiplier))

/-- BondingCurveCalculator.apply_slippage_tolerance: body is line-for-line the
same computation as utils.calculate_slippage_amount. -/
def apply_slippage_tolerance (amount slippage_basis_points : Int)
    (is_minimum : Bool) : Int :=
  let slippage_multiplier := fdivInt slippage_basis_points 10000
  if is_minimum then
    ftrunc (fmul (float_of_int amount) (fsub_one slippage_multiplier))
  else
    ftrunc (fmul (float_of_int amount) (fadd_one slippage_multiplier))

-- ===========================================================================
-- BondingCurveAccount (bonding_curve.py lines 234-288)
-- ===========================================================================

/-- State of a bonding curve account (fields read from `account_data`). -/
structure BondingCurveAccount where
  virtual_token_reserves : Int
  virtual_sol_reserves : Int
  real_token_reserves : Int
  real_sol_reserves : Int
  token_total_supply : Int
  complete : Bool
deriving DecidableEq

/-- BondingCurveAccount.get_progress_percentage (lines 274-288): returns 0.0
when the supply is not positive, otherwise
`min((tokens_bought / total_supply) * 100, 100.0)` in float arithmetic. -/
def get_progress_percentage (acct : BondingCurveAccount) : Fp64 :=
  if acct.token_total_supply ≤ 0 then ⟨0, 0⟩
  else
    let tokens_bought := acct.token_total_supply - acct.real_token_reserves
    let progress := fmul (fdivInt tokens_bought acct.token_total_supply) (float_of_int 100)
    if fleInt progress 100 then progress else ⟨100, 0⟩

-- ===========================================================================
-- LiquidityPool / AMMManager routing (amm.py lines 116-154 and 261-461)
-- ===========================================================================

/-- A liquidity pool; `PublicKey` mints are modelled as opaque ids with
decidable equality. -/
structure LiquidityPool where
  token_a_mint : Nat
  token_b_mint : Nat
  reserve_a : Int
  reserve_b : Int
  total_supply : Int
  fee_basis_points : Int
deriving DecidableEq

/-- Result dictionary of LiquidityPool.simulate_swap. -/
structure SwapSim where
  amount_out : Int
  price_impact : Fp64
  effective_price : Fp64
  fee_amount : Int
deriving DecidableEq

/-- AMMCalculator.calculate_price_impact (amm.py lines 116-154).  The inner
call to get_amount_out passes no fee, so the class default applies; float
arithmetic follows the binary64 model.  Dividing by a zero price raises
Python's ZeroDivisionError, modelled as `.error .zeroDivision`. -/
def calculate_price_impact (amount_in reserve_in reserve_out : Int) :
    Except PumpErr Fp64 :=
  if reserve_in ≤ 0 ∨ reserve_out ≤ 0 then .ok ⟨0, 0⟩
  else
    let price_before := fdivInt reserve_out reserve_in
    match get_amount_out amount_in reserve_in reserve_out none with
    | .error e => .error e
    | .ok amount_out =>
      let new_reserve_in := reserve_in + amount_in
      let new_reserve_out := reserve_out - amount_out
      if new_reserve_in ≤ 0 ∨ new_reserve_out ≤ 0 then .ok ⟨100, 0⟩
      else
        let price_after := fdivInt new_reserve_out new_reserve_in
        if price_before.m = 0 then .error .zeroDivision
        else
          let impact :=
            fmul (fdivF (fabs (fsub price_after price_before)) price_before)
              (float_of_int 100)
          if fleInt impact 100 then .ok impact else .ok ⟨100, 0⟩

/-- LiquidityPool.simulate_swap (amm.py lines 312-348). -/
def simulate_swap (pool : LiquidityPool) (amount_in : Int) (token_a_to_b : Bool) :
    Except PumpErr SwapSim :=
  let reserve_in := if token_a_to_b then pool.reserve_a else pool.reserve_b
  let reserve_out := if token_a_to_b then pool.reserve_b else pool.reserve_a
  match get_amount_out amount_in reserve_in reserve_out (some pool.fee_basis_points) with
  | .error e => .error e
  | .ok amount_out =>
    match calculate_price_impact amount_in reserve_in reserve_out with
    | .error e => .error e
    | .ok price_impact =>
      let effective_price := if 0 < amount_in then fdivInt amount_out amount_in else ⟨0, 0⟩
      .ok ⟨amount_out, price_impact, effective_price,
        (amount_in * pool.fee_basis_points).fdiv 10000⟩

/-- Route dictionary built by AMMManager.find_best_route; `route_pair` stands
for the `[str(token_in), str(token_out)]` entry. -/
structure Route where
  kind : String
  pool_ids : List String
  amount_out : Int
  price_impact : Fp64
  route_pair : Nat × Nat
deriving DecidableEq

/-- The matching test of amm.py lines 443-444: the pool offers the requested
pair in either orientation. -/
def pool_matchesB (pool : LiquidityPool) (token_in token_out : Nat) : Bool :=
  (pool.token_a_mint == token_in && pool.token_b_mint == token_out) ||
  (pool.token_b_mint == token_in && pool.token_a_mint == token_out)

/-- Loop body of AMMManager.find_best_route (amm.py lines 438-461): iterate
the pools dict in insertion order, simulating a swap on every matching pool
and keeping the route with the largest output. -/
def find_best_route_aux (token_in token_out : Nat) (amount_in : Int) :
    List (String × LiquidityPool) → Option Route → Int → Except PumpErr (Option Route)
  | [], best, _ => .ok best
  | (pool_id, pool) :: rest, best, best_amount_out =>
    if pool_matchesB pool token_in token_out then
      match simulate_swap pool amount_in (pool.token_a_mint == token_in) with
      | .error e => .error e
      | .ok sim =>
        if best_amount_out < sim.amount_out then
          find_best_route_aux token_in token_out amount_in rest
            (some ⟨"direct", [pool_id], sim.amount_out, sim.price_impact,
              (token_in, token_out)⟩) sim.amount_out
        else
          find_best_route_aux token_in token_out amount_in rest best best_amount_out
    else
      find_best_route_aux token_in token_out amount_in rest best best_amount_out

/-- AMMManager.find_best_route (amm.py lines 421-461). -/
def find_best_route (pools : List (String × LiquidityPool))
    (token_in token_out : Nat) (amount_in : Int) : Except PumpErr (Option Route) :=
  find_best_route_aux token_in token_out amount_in pools none 0

-- ===========================================================================
-- EventManager._parse_log_message (events.py lines 168-208)
-- ===========================================================================

/-- Python values as they appear in log payloads (data-shaped values:
None, bools, ints, strings, lists, and string-keyed dicts). -/
inductive PyVal where
  | pynone
  | pybool (b : Bool)
  | pyint (n : Int)
  | pystr (s : String)
  | pylist (elems : List PyVal)
  | pydict (entries : List (String × PyVal))

/-- Python exceptions that the body of _parse_log_message can raise (they are
all caught by its blanket `except`). -/
inductive PyExc where
  | typeError
  | indexError
deriving DecidableEq

/-- Parsed event dictionaries.  The placeholder fields of the source
(`"mint": "placeholder"`, ...) are constant, so only the discriminating
`event_type` and the wall-clock `timestamp` are carried. -/
inductive EventData where
  | createEvent (timestamp : Int)
  | tradeEvent (timestamp : Int)
  | completeEvent (timestamp : Int)
deriving DecidableEq

/-- Lookup in a string-keyed dict (Python dicts have unique keys, so taking
the first match is exact). -/
def dict_get (entries : List (String × PyVal)) (key : String) : Option PyVal :=
  match entries with
  | [] => none
  | (k, v) :: rest => if k = key then some v else dict_get rest key

/-- Lines 182-185: `message.get('result')` when the payload is a dict;
`getattr(message, 'result', None)` yields `None` for the data-shaped
payloads modelled here. -/
def get_attr_result (message : PyVal) : PyVal :=
  match message with
  | .pydict entries => (dict_get entries "result").getD .pynone
  | _ => .pynone

/-- Python truthiness of a value. -/
def truthy : PyVal → Bool
  | .pynone => false
  | .pybool b => b
  | .pyint n => n != 0
  | .pystr s => !(s == "")
  | .pylist elems => !elems.isEmpty
  | .pydict entries => !entries.isEmpty

/-- Lines 188-192: `result.get('logs', [])` when `result` is a dict, else
`getattr(result, 'logs', [])`, which is `[]` for the data-shaped payloads
modelled here. -/
def get_logs (result : PyVal) : PyVal :=
  match result with
  | .pydict entries => (dict_get entries "logs").getD (.pylist [])
  | _ => .pylist []

/-- Python iteration `for log in logs`: lists yield their elements, strings
their characters, dicts their keys; other values raise TypeError. -/
def py_iterate : PyVal → Except PyExc (List PyVal)
  | .pylist elems => .ok elems
  | .pystr s => .ok (s.toList.map fun c => .pystr (String.mk [c]))
  | .pydict entries => .ok (entries.map fun kv => .pystr kv.1)
  | _ => .error .typeError

/-- Tests whether the first list starts the second. -/
def isPfx : List Char → List Char → Bool
  | [], _ => true
  | _ :: _, [] => false
  | a :: s1, b :: s2 => a == b && isPfx s1 s2

/-- Python substring test `sub in hay`. -/
def hasSub (sub : List Char) : List Char → Bool
  | [] => isPfx sub []
  | c :: rest => isPfx sub (c :: rest) || hasSub sub rest

/-- Suffix of `hay` after the first occurrence of `sep`, when there is one:
the `[1]` entry of Python `hay.split(sep, 1)`. -/
def splitAfterFirst (sep : List Char) : List Char → Option (List Char)
  | [] => if isPfx sep [] then some [] else none
  | c :: rest =>
    if isPfx sep (c :: rest) then some (List.drop sep.length (c :: rest))
    else splitAfterFirst sep rest

/-- EventManager._parse_create_event (lines 210-221): a dict of placeholder
values plus the current timestamp. -/
def parse_create_event (now : Int) (log_data : List Char) : EventData :=
  .createEvent now

/-- EventManager._parse_trade_event (lines 223-233). -/
def parse_trade_event (now : Int) (log_data : List Char) : EventData :=
  .tradeEvent now

/-- EventManager._parse_complete_event (lines 235-242). -/
def parse_complete_event (now : Int) (log_data : List Char) : EventData :=
  .completeEvent now

/-- The `for log in logs` loop of lines 194-203.  A non-string log makes the
containment test `'Program log:' in log` raise TypeError; a log containing
`'Program log:'` but not `'Program log: '` makes `split(...)[1]` raise
IndexError; otherwise the three discriminator strings are tried in order on
the text after the marker, and an unmatched line falls through to the next. -/
def parse_log_loop (now : Int) : List PyVal → Except PyExc (Option EventData)
  | [] => .ok none
  | log :: rest =>
    match log with
    | .pystr s =>
      if hasSub ("Program log:".toList) s.toList then
        match splitAfterFirst ("Program log: ".toList) s.toList with
        | none => .error .indexError
        | some log_data =>
          if hasSub ("CreateEvent".toList) log_data then
            .ok (some (parse_create_event now log_data))
          else if hasSub ("TradeEvent".toList) log_data then
            .ok (some (parse_trade_event now log_data))
          else if hasSub ("CompleteEvent".toList) log_data then
            .ok (some (parse_complete_event now log_data))
          else parse_log_loop now rest
      else parse_log_loop now rest
    | _ => .error .typeError

/-- Body of the `try` block of _parse_log_message (lines 180-204): falls
through to `return None` when the payload has no truthy `result` or when no
log line matches an event discriminator. -/
def parse_log_message_body (now : Int) (message : PyVal) :
    Except PyExc (Option EventData) :=
  let result := get_attr_result message
  if truthy result then
    match py_iterate (get_logs result) with
    | .error e => .error e
    | .ok logs => parse_log_loop now logs
  else .ok none

/-- EventManager._parse_log_message (lines 168-208): the blanket
`except Exception` turns any raised exception into the `None` return.  The
wall-clock reading `int(time.time())` of the event builders is passed in as
`now`. -/
def parse_log_message (now : Int) (message : PyVal) : Option EventData :=
  match parse_log_message_body now message with
  | .ok r => r
  | .error _ => none

/-- The list of values the parser's `for log in logs` loop would visit (empty
when iteration raises, in which case the parser returns None anyway). -/
def program_log_lines (message : PyVal) : List PyVal :=
  match py_iterate (get_logs (get_attr_result message)) with
  | .ok elems => elems
  | .error _ => []

/-- A log line containing none of the three event discriminator strings. -/
def no_event_discriminator (s : String) : Prop :=
  hasSub ("CreateEvent".toList) s.toList = false ∧
  hasSub ("TradeEvent".toList) s.toList = false ∧
  hasSub ("CompleteEvent".toList) s.toList = false

-- ===========================================================================
-- Specification-side formulas (for refinement comparisons; these follow the
-- spec text, not the source)
-- ===========================================================================

/-- Spec formula (§4.1): `floor(amount_in_net * reserve_out /
(reserve_in*10000 + amount_in_net))` with `amount_in_net = amount_in *
(10000 - fee_bps)`. -/
def spec_amount_out (amount_in reserve_in reserve_out fee_bps : Int) : Int :=
  (amount_in * (10000 - fee_bps) * reserve_out).fdiv
    (reserve_in * 10000 + amount_in * (10000 - fee_bps))

/-- Spec formula (§4.4): `floor(expected_amount * (10000 ∓ tolerance_bps) /
10000)` for the Minimum / Maximum slippage bound. -/
def spec_slippage_bound (expected_amount tolerance_bps : Int) (is_minimum : Bool) : Int :=
  if is_minimum then (expected_amount * (10000 - tolerance_bps)).fdiv 10000
  else (expected_amount * (10000 + tolerance_bps)).fdiv 10000

-- ===========================================================================
-- Shared helper lemmas: integer floor division
-- ===========================================================================

lemma fdiv_eq_ediv_of_pos (a : ℤ) {b : ℤ} (hb : 0 < b) : a.fdiv b = a / b :=
  Int.fdiv_eq_ediv a hb.le

lemma ediv_le_of_le_mul {a b c : ℤ} (hc : 0 < c) (h : a ≤ b * c) : a / c ≤ b := by
  have h2 : a < (b + 1) * c := lt_of_le_of_lt h (by nlinarith)
  have := (Int.ediv_lt_iff_lt_mul hc).2 h2
  omega

lemma ediv_mul_le_self {a c : ℤ} (hc : 0 < c) : a / c * c ≤ a := by
  have h := Int.ediv_add_emod a c
  have h2 := Int.emod_nonneg a hc.ne'
  nlinarith [h, h2]

lemma ediv_mono_cross {n1 d1 n2 d2 : ℤ} (h1 : 0 < d1) (h2 : 0 < d2)
    (h : n1 * d2 ≤ n2 * d1) : n1 / d1 ≤ n2 / d2 := by
  refine (Int.le_ediv_iff_mul_le h2).2 ?_
  have hq : n1 / d1 * d1 ≤ n1 := ediv_mul_le_self h1
  have hstep : n1 / d1 * d2 * d1 ≤ n2 * d1 := by nlinarith
  exact le_of_mul_le_mul_right hstep h1

-- ===========================================================================
-- Helper lemmas about the AMM functions
-- ===========================================================================

lemma effective_fee_of_ne {f : ℤ} (h : f ≠ 0) : effective_fee (some f) = f := by
  simp [effective_fee, h]

lemma effective_fee_bounds {f : ℤ} (h0 : 0 ≤ f) (h1 : f < 10000) :
    1 ≤ effective_fee (some f) ∧ effective_fee (some f) < 10000 := by
  by_cases hf : f = 0
  · simp [effective_fee, hf, FEE_BASIS_POINTS]
  · rw [effective_fee_of_ne hf]
    omega

lemma get_amount_out_ok_iff {a ri ro y : ℤ} {fee : Option ℤ} :
    get_amount_out a ri ro fee = .ok y ↔
      0 < a ∧ 0 < ri ∧ 0 < ro ∧
      y = (a * (10000 - effective_fee fee) * ro).fdiv
            (ri * 10000 + a * (10000 - effective_fee fee)) ∧ 0 < y := by
  unfold get_amount_out
  split
  · constructor
    · intro h; cases h
    · intro h; omega
  · split
    · constructor
      · intro h; cases h
      · intro h
        rcases h with ⟨_, h2, h3, _⟩
        omega
    · dsimp only
      split
      · constructor
        · intro h; cases h
        · intro h; omega
      · constructor
        · intro h
          cases h
          refine ⟨by omega, by omega, by omega, rfl, by omega⟩
        · intro h
          rcases h with ⟨_, _, _, h4, _⟩
          rw [h4]

lemma get_amount_in_ok_iff {y ri ro a : ℤ} {fee : Option ℤ} :
    get_amount_in y ri ro fee = .ok a ↔
      0 < y ∧ 0 < ri ∧ 0 < ro ∧ y < ro ∧
      a = (ri * y * 10000).fdiv ((ro - y) * (10000 - effective_fee fee)) + 1 := by
  unfold get_amount_in
  split
  · constructor
    · intro h; cases h
    · intro h; omega
  · split
    · constructor
      · intro h; cases h
      · intro h
        rcases h with ⟨_, h2, h3, _⟩
        omega
    · split
      · constructor
        · intro h; cases h
        · intro h; omega
      · dsimp only
        constructor
        · intro h
          cases h
          refine ⟨by omega, by omega, by omega, by omega, rfl⟩
        · intro h
          rcases h with ⟨_, _, _, _, h5⟩
          rw [h5]

/-- On the valid domain the AMM output is the floor-division quotient, bounded
strictly by the output reserve. -/
lemma amount_out_lt_reserve {a ri ro y : ℤ} {fee : Option ℤ}
    (hg1 : 1 ≤ effective_fee fee) (hg2 : effective_fee fee < 10000)
    (h : get_amount_out a ri ro fee = .ok y) : y < ro := by
  rcases get_amount_out_ok_iff.1 h with ⟨ha, hri, hro, hy, hypos⟩
  set g := effective_fee fee with hg
  have hphi : 0 < 10000 - g := by omega
  have hden : 0 < ri * 10000 + a * (10000 - g) := by nlinarith
  rw [fdiv_eq_ediv_of_pos _ hden] at hy
  rw [hy]
  refine (Int.ediv_lt_iff_lt_mul hden).2 ?_
  nlinarith

/-- Weak monotonicity of the AMM output in the input amount. -/
lemma amount_out_mono {a a2 ri ro y y2 : ℤ} {fee : Option ℤ}
    (hg2 : effective_fee fee < 10000) (haa : a ≤ a2)
    (h : get_amount_out a ri ro fee = .ok y)
    (h2 : get_amount_out a2 ri ro fee = .ok y2) : y ≤ y2 := by
  rcases get_amount_out_ok_iff.1 h with ⟨ha, hri, hro, hy, hypos⟩
  rcases get_amount_out_ok_iff.1 h2 with ⟨ha2, _, _, hy2, hy2pos⟩
  set g := effective_fee fee with hg
  have hphi : 0 < 10000 - g := by omega
  have hden : 0 < ri * 10000 + a * (10000 - g) := by nlinarith
  have hden2 : 0 < ri * 10000 + a2 * (10000 - g) := by nlinarith
  rw [fdiv_eq_ediv_of_pos _ hden] at hy
  rw [fdiv_eq_ediv_of_pos _ hden2] at hy2
  rw [hy, hy2]
  refine ediv_mono_cross hden hden2 ?_
  have hc : (0:ℤ) ≤ (10000 - g) * ro * (ri * 10000) := by
    have h1 : (0:ℤ) ≤ ri * 10000 := by omega
    have h2 : (0:ℤ) ≤ 10000 - g := by omega
    positivity
  have key := mul_le_mul_of_nonneg_left haa hc
  nlinarith [key]

/-- Normal form of get_amount_out on the valid domain with a nonzero fee. -/
lemma get_amount_out_valid {a ri ro f : ℤ} (ha : 0 < a) (hri : 0 < ri) (hro : 0 < ro)
    (hf1 : 1 ≤ f) :
    get_amount_out a ri ro (some f) =
      if spec_amount_out a ri ro f ≤ 0 then .error .insufficientOutput
      else .ok (spec_amount_out a ri ro f) := by
  have h1 : ¬ a ≤ 0 := by omega
  have h2 : ¬ (ri ≤ 0 ∨ ro ≤ 0) := by omega
  have hf0 : f ≠ 0 := by omega
  simp only [get_amount_out, if_neg h1, if_neg h2, effective_fee_of_ne hf0, spec_amount_out]

/-- C1: on the stated domain the returned quotient is the spec formula and the
three failure modes are exactly characterized, except that the fee must be
nonzero (a fee of 0 silently becomes the default 100, see the C1
counterexample), and a reserve failure additionally requires the amount check
to pass first. -/
theorem c1_get_amount_out_contract (a ri ro f : ℤ) :
    (get_amount_out a ri ro (some f) = .error .invalidAmount ↔ a ≤ 0) ∧
    (get_amount_out a ri ro (some f) = .error .invalidReserves ↔
      (0 < a ∧ (ri ≤ 0 ∨ ro ≤ 0))) ∧
    (0 < a → 0 < ri → 0 < ro → 1 ≤ f → f < 10000 →
      (get_amount_out a ri ro (some f) = .error .insufficientOutput ↔
        spec_amount_out a ri ro f ≤ 0) ∧
      (0 < spec_amount_out a ri ro f →
        get_amount_out a ri ro (some f) = .ok (spec_amount_out a ri ro f))) := by
  refine ⟨?_, ?_, ?_⟩
  · by_cases h1 : a ≤ 0
    · simp [get_amount_out, h1]
    · by_cases h2 : ri ≤ 0 ∨ ro ≤ 0
      · simp only [get_amount_out, if_neg h1, if_pos h2]
        constructor
        · intro h; cases h
        · intro h; omega
      · simp only [get_amount_out, if_neg h1, if_neg h2]
        split
        · constructor
          · intro h; cases h
          · intro h; omega
        · constructor
          · intro h; cases h
          · intro h; omega
  · by_cases h1 : a ≤ 0
    · simp only [get_amount_out, if_pos h1]
      constructor
      · intro h; cases h
      · intro h; omega
    · by_cases h2 : ri ≤ 0 ∨ ro ≤ 0
      · simp only [get_amount_out, if_neg h1, if_pos h2]
        constructor
        · intro _; exact ⟨by omega, h2⟩
        · intro _; trivial
      · simp only [get_amount_out, if_neg h1, if_neg h2]
        split
        · constructor
          · intro h; cases h
          · intro h; exact absurd h.2 h2
        · constructor
          · intro h; cases h
          · intro h; exact absurd h.2 h2
  · intro ha hri hro hf1 hf2
    rw [get_amount_out_valid ha hri hro hf1]
    constructor
    · split
      · constructor
        · intro _; assumption
        · intro _; rfl
      · constructor
        · intro h; cases h
        · intro h; omega
    · intro hpos
      rw [if_neg (by omega)]

/-- C1 counterexample: with an explicit fee of 0, line 62 of amm.py replaces
the fee by the default 100, so the result 4974 differs from the spec formula
value 5000 at fee 0 even though 0 lies in the claimed range [0, 10000). -/
theorem c1_counterexample :
    get_amount_out 100 100 10000 (some 0) = .ok 4974 ∧
    spec_amount_out 100 100 10000 0 = 5000 :=
  ⟨by decide, by decide⟩

theorem c1_witness :
    get_amount_out 100 1000 1000 (some 100) = .ok (spec_amount_out 100 1000 1000 100) := by
  have h := ((c1_get_amount_out_contract 100 1000 1000 100).2.2
    (by decide) (by decide) (by decide) (by decide) (by decide)).2
  exact h (by decide)

/-- C10: a fee argument of 0 is falsy in Python, so `fee_basis_points or
FEE_BASIS_POINTS` yields the class default 100 and both quoting functions
behave exactly as with an explicit fee of 100. -/
theorem c10_zero_fee_equals_default_fee (a ri ro : ℤ) :
    get_amount_out a ri ro (some 0) = get_amount_out a ri ro (some 100) ∧
    get_amount_in a ri ro (some 0) = get_amount_in a ri ro (some 100) :=
  ⟨rfl, rfl⟩

/-- C5 (amended): on the valid domain the output is strictly below the output
reserve, and it is weakly (not strictly) increasing in the input amount. -/
theorem c5_output_bounded_and_monotone (a a2 ri ro f y y2 : ℤ)
    (hf0 : 0 ≤ f) (hf : f < 10000) :
    (get_amount_out a ri ro (some f) = .ok y → y < ro) ∧
    (a ≤ a2 → get_amount_out a ri ro (some f) = .ok y →
      get_amount_out a2 ri ro (some f) = .ok y2 → y ≤ y2) := by
  obtain ⟨hg1, hg2⟩ := effective_fee_bounds hf0 hf
  exact ⟨fun h => amount_out_lt_reserve hg1 hg2 h,
    fun haa h h2 => amount_out_mono hg2 haa h h2⟩

/-- C5 counterexample: the outputs at input amounts 10000 and 10001 coincide
(both 908 with reserves 1000/1000 and fee 100), refuting strict monotonicity
in the input amount. -/
theorem c5_counterexample :
    get_amount_out 10000 1000 1000 (some 100) = .ok 908 ∧
    get_amount_out 10001 1000 1000 (some 100) = .ok 908 ∧ (10000:ℤ) < 10001 :=
  ⟨by decide, by decide, by decide⟩

theorem c5_witness :
    (get_amount_out 10000 1000 1000 (some 100) = .ok 908 → (908:ℤ) < 1000) ∧
    ((10000:ℤ) ≤ 10001 → get_amount_out 10000 1000 1000 (some 100) = .ok 908 →
      get_amount_out 10001 1000 1000 (some 100) = .ok 908 → (908:ℤ) ≤ 908) :=
  c5_output_bounded_and_monotone 10000 10001 1000 1000 100 908 908 (by decide) (by decide)

/-- C2 (amended): composing the quoting functions bounds the input from above
by x + 1, and, in the reverse order, the +1 rounding of get_amount_in
guarantees that the quoted input buys at least the requested output; the
originally claimed lower bound `get_amount_in (get_amount_out x) ≥ x` fails
(see the C2 counterexample). -/
theorem c2_round_trip_bounds (ri ro f : ℤ) (hf0 : 0 ≤ f) (hf : f < 10000) :
    (∀ a y, get_amount_out a ri ro (some f) = .ok y →
      ∃ a2, get_amount_in y ri ro (some f) = .ok a2 ∧ a2 ≤ a + 1) ∧
    (∀ y a2, get_amount_in y ri ro (some f) = .ok a2 →
      ∃ y2, get_amount_out a2 ri ro (some f) = .ok y2 ∧ y ≤ y2) := by
  obtain ⟨hg1, hg2⟩ := effective_fee_bounds hf0 hf
  set g := effective_fee (some f) with hgdef
  have hphi : 0 < 10000 - g := by omega
  constructor
  · intro a y h
    rcases get_amount_out_ok_iff.1 h with ⟨ha, hri, hro, hy, hypos⟩
    have hylt : y < ro := amount_out_lt_reserve hg1 hg2 h
    have hden : 0 < ri * 10000 + a * (10000 - g) := by nlinarith
    have hden2 : 0 < (ro - y) * (10000 - g) := by nlinarith
    refine ⟨(ri * y * 10000).fdiv ((ro - y) * (10000 - g)) + 1, ?_, ?_⟩
    · exact get_amount_in_ok_iff.2 ⟨hypos, hri, hro, hylt, rfl⟩
    · rw [fdiv_eq_ediv_of_pos _ hden2]
      rw [fdiv_eq_ediv_of_pos _ hden] at hy
      have hfloor : y * (ri * 10000 + a * (10000 - g)) ≤ a * (10000 - g) * ro := by
        have h5 := ediv_mul_le_self (a := a * (10000 - g) * ro) hden
        rw [← hy] at h5
        exact h5
      have hkey : ri * y * 10000 ≤ a * ((ro - y) * (10000 - g)) := by nlinarith
      have h6 := ediv_le_of_le_mul hden2 (by nlinarith : ri * y * 10000 ≤ a * ((ro - y) * (10000 - g)))
      omega
  · intro y a2 h
    rcases get_amount_in_ok_iff.1 h with ⟨hy, hri, hro, hylt, ha2⟩
    have hden2 : 0 < (ro - y) * (10000 - g) := by nlinarith
    have hM : (0:ℤ) ≤ ri * y * 10000 := by nlinarith
    rw [fdiv_eq_ediv_of_pos _ hden2] at ha2
    have ha2pos : 0 < a2 := by
      have := Int.ediv_nonneg hM hden2.le
      omega
    have hdenb : 0 < ri * 10000 + a2 * (10000 - g) := by nlinarith
    have hkey : ri * y * 10000 < a2 * ((ro - y) * (10000 - g)) := by
      have h3 := Int.lt_ediv_add_one_mul_self (ri * y * 10000) hden2
      nlinarith
    have hy2ge : y ≤ (a2 * (10000 - g) * ro) / (ri * 10000 + a2 * (10000 - g)) := by
      refine (Int.le_ediv_iff_mul_le hdenb).2 ?_
      nlinarith
    refine ⟨(a2 * (10000 - g) * ro).fdiv (ri * 10000 + a2 * (10000 - g)), ?_, ?_⟩
    · refine get_amount_out_ok_iff.2 ⟨ha2pos, hri, hro, rfl, ?_⟩
      rw [fdiv_eq_ediv_of_pos _ hdenb]
      omega
    · rw [fdiv_eq_ediv_of_pos _ hdenb]
      exact hy2ge

/-- C2 counterexample: with x = 3, reserves (1, 2) and fee 100, the forward
quote is 1 token, and quoting the input needed for 1 token gives 2 < 3: the
round trip underestimates the original input. -/
theorem c2_counterexample :
    get_amount_out 3 1 2 (some 100) = .ok 1 ∧
    get_amount_in 1 1 2 (some 100) = .ok 2 ∧ (2:ℤ) < 3 :=
  ⟨by decide, by decide, by decide⟩

theorem c2_witness :
    (∃ a2, get_amount_in 1 1 2 (some 100) = .ok a2 ∧ a2 ≤ 3 + 1) ∧
    (∃ y2, get_amount_out 2 1 2 (some 100) = .ok y2 ∧ (1:ℤ) ≤ y2) := by
  have h := c2_round_trip_bounds 1 2 100 (by decide) (by decide)
  exact ⟨h.1 3 1 (by decide), h.2 1 2 (by decide)⟩

-- ===========================================================================
-- Bonding curve helper lemmas (C6)
-- ===========================================================================

lemma get_buy_price_ok_iff {s rs rt T : ℤ} :
    get_buy_price s rs rt = .ok T ↔
      0 < s ∧
      T = (VIRTUAL_TOKEN_RESERVES + rt) -
        ((VIRTUAL_SOL_RESERVES + rs) * (VIRTUAL_TOKEN_RESERVES + rt)).fdiv
          (VIRTUAL_SOL_RESERVES + rs + s) ∧ 0 < T := by
  unfold get_buy_price
  split
  · constructor
    · intro h; cases h
    · intro h; omega
  · dsimp only
    split
    · constructor
      · intro h; cases h
      · intro h; omega
    · constructor
      · intro h
        cases h
        exact ⟨by omega, rfl, by omega⟩
      · intro h
        rw [h.2.1]

lemma get_sell_price_ok_iff {t rs rt so : ℤ} :
    get_sell_price t rs rt = .ok so ↔
      0 < t ∧
      so = (VIRTUAL_SOL_RESERVES + rs) -
        ((VIRTUAL_SOL_RESERVES + rs) * (VIRTUAL_TOKEN_RESERVES + rt)).fdiv
          (VIRTUAL_TOKEN_RESERVES + rt + t) ∧ 0 < so := by
  unfold get_sell_price
  split
  · constructor
    · intro h; cases h
    · intro h; omega
  · dsimp only
    split
    · constructor
      · intro h; cases h
      · intro h; omega
    · constructor
      · intro h
        cases h
        exact ⟨by omega, rfl, by omega⟩
      · intro h
        rw [h.2.1]

/-- C6 (amended): for non-negative real reserves and a successful buy of
`T` tokens for `s` lamports, selling exactly `T` against the updated reserves
succeeds and returns `s` or `s + 1` lamports (the floor divisions round in
the trader's favor by at most one lamport), provided the combined virtual
SOL side does not exceed the virtual token side - which holds for every
realistic state since the virtual token constant is five orders of magnitude
larger than the virtual SOL constant.  In particular the originally claimed
bound `sol_out ≤ sol_in` fails: whenever the division leaves a remainder the
trader receives `s + 1` (see the C6 counterexample). -/
theorem c6_buy_then_sell_bounds (rs rt s T : ℤ) (hrs : 0 ≤ rs) (hrt : 0 ≤ rt)
    (hrange : VIRTUAL_SOL_RESERVES + rs + s ≤ VIRTUAL_TOKEN_RESERVES + rt + 1)
    (hbuy : get_buy_price s rs rt = .ok T) :
    ∃ so, get_sell_price T (rs + s) (rt - T) = .ok so ∧ s ≤ so ∧ so ≤ s + 1 := by
  rcases get_buy_price_ok_iff.1 hbuy with ⟨hs, hT, hTpos⟩
  have hVS : VIRTUAL_SOL_RESERVES = 30000000000 := rfl
  have hVT : VIRTUAL_TOKEN_RESERVES = 1073000000000000 := rfl
  set A := VIRTUAL_SOL_RESERVES + rs with hAdef
  set B := VIRTUAL_TOKEN_RESERVES + rt with hBdef
  have hApos : 0 < A := by rw [hAdef, hVS]; omega
  have hBpos : 0 < B := by rw [hBdef, hVT]; omega
  have hAs : 0 < A + s := by omega
  rw [fdiv_eq_ediv_of_pos _ hAs] at hT
  obtain ⟨q, hq⟩ : ∃ x, x = (A * B) / (A + s) := ⟨_, rfl⟩
  obtain ⟨r, hrq⟩ : ∃ x, x = (A * B) % (A + s) := ⟨_, rfl⟩
  rw [← hq] at hT
  have hmod : (A + s) * q + r = A * B := by
    rw [hq, hrq]; exact Int.ediv_add_emod _ _
  have hr0 : 0 ≤ r := by rw [hrq]; exact Int.emod_nonneg _ (by omega)
  have hr1 : r < A + s := by rw [hrq]; exact Int.emod_lt_of_pos _ hAs
  have e1 : VIRTUAL_SOL_RESERVES + (rs + s) = A + s := by rw [hAdef]; ring
  have e2 : VIRTUAL_TOKEN_RESERVES + (rt - T) = q := by rw [hT, hBdef]; ring
  have hnum : (A + s) * q = -r + A * B := by linarith
  have hdiv : ((A + s) * q) / B = (-r) / B + A := by
    rw [hnum, Int.add_mul_ediv_right _ _ (by omega : B ≠ 0)]
  rcases eq_or_lt_of_le hr0 with hr | hr
  · have hdiv0 : ((A + s) * q) / B = A := by
      rw [hdiv, ← hr]
      norm_num
    refine ⟨s, ?_, le_refl s, by omega⟩
    refine get_sell_price_ok_iff.2 ⟨hTpos, ?_, hs⟩
    rw [e1, e2]
    have e3 : q + T = B := by rw [hT]; ring
    rw [e3, fdiv_eq_ediv_of_pos _ hBpos, hdiv0]
    omega
  · have hrB : r ≤ B := by omega
    have hneg1 : (-r) / B = -1 := by
      have h9 : (-r : ℤ) = (B - r) + (-1) * B := by ring
      rw [h9, Int.add_mul_ediv_right _ _ (by omega : B ≠ 0),
        Int.ediv_eq_zero_of_lt (by omega) (by omega)]
      norm_num
    have hdiv1 : ((A + s) * q) / B = A - 1 := by
      rw [hdiv, hneg1]
      ring
    refine ⟨s + 1, ?_, by omega, le_refl _⟩
    refine get_sell_price_ok_iff.2 ⟨hTpos, ?_, by omega⟩
    rw [e1, e2]
    have e3 : q + T = B := by rw [hT]; ring
    rw [e3, fdiv_eq_ediv_of_pos _ hBpos, hdiv1]
    omega

/-- C6 counterexample: buying with 1 lamport on the fresh curve yields 35767
tokens; selling those 35767 tokens against the updated reserves returns 2
lamports, strictly more than was put in, refuting `sol_out ≤ sol_in`. -/
theorem c6_counterexample :
    get_buy_price 1 0 0 = .ok 35767 ∧
    get_sell_price 35767 (0 + 1) (0 - 35767) = .ok 2 ∧ (1:ℤ) < 2 :=
  ⟨by decide, by decide, by decide⟩

theorem c6_witness :
    ∃ so, get_sell_price 35767 (0 + 1) (0 - 35767) = .ok so ∧ (1:ℤ) ≤ so ∧ so ≤ 1 + 1 :=
  c6_buy_then_sell_bounds 0 0 1 35767 (by decide) (by decide) (by decide) (by decide)

-- ===========================================================================
-- Lemmas about the binary64 rounding model
-- ===========================================================================

lemma ilog2Aux_spec : ∀ fuel n, 1 ≤ n → n ≤ fuel →
    2 ^ ilog2Aux fuel n ≤ n ∧ n < 2 ^ (ilog2Aux fuel n + 1) := by
  intro fuel
  induction fuel with
  | zero => intro n h1 h2; omega
  | succ fuel ih =>
    intro n h1 h2
    by_cases h : 2 ≤ n
    · have hrec := ih (n / 2) (by omega) (by omega)
      simp only [ilog2Aux, if_pos h]
      have hd : 2 ^ (ilog2Aux fuel (n / 2) + 1) = 2 * 2 ^ ilog2Aux fuel (n / 2) := by ring
      have hd2 : 2 ^ (ilog2Aux fuel (n / 2) + 1 + 1) = 2 * 2 ^ (ilog2Aux fuel (n / 2) + 1) := by
        ring
      omega
    · have hn : n = 1 := by omega
      subst hn
      simp [ilog2Aux, h]

lemma ilog2_spec {n : ℕ} (h : 1 ≤ n) : 2 ^ ilog2 n ≤ n ∧ n < 2 ^ (ilog2 n + 1) :=
  ilog2Aux_spec n n h (le_refl n)

/-- Division characterization of the euclidean quotient as a rational floor. -/
lemma int_ediv_eq_floor {a b : ℤ} (hb : 0 < b) : a / b = ⌊(a : ℚ) / (b : ℚ)⌋ := by
  have hb0 : (0:ℚ) < (b:ℚ) := by exact_mod_cast hb
  symm
  rw [Int.floor_eq_iff]
  constructor
  · rw [le_div_iff hb0]
    exact_mod_cast ediv_mul_le_self hb
  · rw [div_lt_iff hb0]
    exact_mod_cast Int.lt_ediv_add_one_mul_self a hb

lemma fdiv_eq_floor {a b : ℤ} (hb : 0 < b) : a.fdiv b = ⌊(a : ℚ) / (b : ℚ)⌋ := by
  rw [fdiv_eq_ediv_of_pos _ hb]
  exact int_ediv_eq_floor hb

/-- Floors of rationals within distance one of each other differ by at most
one. -/
lemma floor_close {a b : ℚ} (h : |a - b| < 1) : |⌊a⌋ - ⌊b⌋| ≤ 1 := by
  rw [abs_lt] at h
  have h1 : ⌊a⌋ ≤ ⌊b⌋ + 1 := by
    have : a ≤ b + 1 := by linarith
    calc ⌊a⌋ ≤ ⌊b + 1⌋ := Int.floor_le_floor this
      _ = ⌊b⌋ + 1 := by rw [Int.floor_add_one]
  have h2 : ⌊b⌋ - 1 ≤ ⌊a⌋ := by
    have : b - 1 ≤ a := by linarith
    calc ⌊b⌋ - 1 = ⌊b - 1⌋ := by rw [Int.floor_sub_one]
      _ ≤ ⌊a⌋ := Int.floor_le_floor this
  rw [abs_le]
  omega

/-- Value decomposition of a natural division with remainder, over ℚ. -/
lemma nat_cast_div_decomp {P Q : ℕ} (hQ : 1 ≤ Q) :
    (P:ℚ) / Q = ((P / Q : ℕ) : ℚ) + ((P % Q : ℕ) : ℚ) / Q := by
  have hQ0 : (0:ℚ) < (Q:ℚ) := by exact_mod_cast hQ
  have hmod : Q * (P / Q) + P % Q = P := Nat.div_add_mod P Q
  have hcast : (Q:ℚ) * ((P / Q : ℕ):ℚ) + ((P % Q : ℕ):ℚ) = (P:ℚ) := by exact_mod_cast hmod
  field_simp
  linarith

lemma rdivNE_err {P Q : ℕ} (hQ : 1 ≤ Q) :
    |((rdivNE P Q : ℕ) : ℚ) - (P:ℚ) / Q| ≤ 1 / 2 := by
  have hQ0 : (0:ℚ) < (Q:ℚ) := by exact_mod_cast hQ
  have hx := nat_cast_div_decomp (P := P) hQ
  have hrlt : P % Q < Q := Nat.mod_lt _ (by omega)
  have hr0 : (0:ℚ) ≤ ((P % Q : ℕ):ℚ) / Q := by positivity
  have hr1 : ((P % Q : ℕ):ℚ) / Q < 1 := by
    rw [div_lt_one hQ0]
    exact_mod_cast hrlt
  simp only [rdivNE]
  split_ifs with hc1 hc2 hc3
  · have hn : ((P % Q : ℕ):ℚ) ≤ 1 / 2 * Q := by
      have : (2 * (P % Q) : ℕ) ≤ (Q : ℕ) := by omega
      have h2 : ((2 * (P % Q) : ℕ) : ℚ) ≤ ((Q : ℕ) : ℚ) := by exact_mod_cast this
      push_cast at h2
      linarith
    have hrq : ((P % Q : ℕ):ℚ) / Q ≤ 1 / 2 := (div_le_iff hQ0).2 hn
    rw [hx, abs_le]
    constructor <;> push_cast <;> linarith
  · have hn : 1 / 2 * Q ≤ ((P % Q : ℕ):ℚ) := by
      have : (Q : ℕ) ≤ (2 * (P % Q) : ℕ) := by omega
      have h2 : ((Q : ℕ) : ℚ) ≤ ((2 * (P % Q) : ℕ) : ℚ) := by exact_mod_cast this
      push_cast at h2
      linarith
    have hrq : 1 / 2 ≤ ((P % Q : ℕ):ℚ) / Q := (le_div_iff hQ0).2 (by linarith)
    rw [hx, abs_le]
    constructor <;> push_cast <;> linarith
  · have hn : ((P % Q : ℕ):ℚ) = 1 / 2 * Q := by
      have : (2 * (P % Q) : ℕ) = (Q : ℕ) := by omega
      have h2 : ((2 * (P % Q) : ℕ) : ℚ) = ((Q : ℕ) : ℚ) := by exact_mod_cast this
      push_cast at h2
      linarith
    have hrq : ((P % Q : ℕ):ℚ) / Q = 1 / 2 := by
      rw [hn]
      field_simp
      ring
    rw [hx, abs_le]
    constructor <;> push_cast <;> linarith
  · have hn : ((P % Q : ℕ):ℚ) = 1 / 2 * Q := by
      have : (2 * (P % Q) : ℕ) = (Q : ℕ) := by omega
      have h2 : ((2 * (P % Q) : ℕ) : ℚ) = ((Q : ℕ) : ℚ) := by exact_mod_cast this
      push_cast at h2
      linarith
    have hrq : ((P % Q : ℕ):ℚ) / Q = 1 / 2 := by
      rw [hn]
      field_simp
      ring
    rw [hx, abs_le]
    constructor <;> push_cast <;> linarith

/-- Upward half-bound without the absolute value (used for the clamping
lemmas). -/
lemma rdivNE_le {P Q : ℕ} (hQ : 1 ≤ Q) :
    ((rdivNE P Q : ℕ) : ℚ) ≤ (P:ℚ) / Q + 1 / 2 := by
  have h := abs_le.1 (rdivNE_err (P := P) hQ)
  linarith [h.2]

lemma rdivNE_exact {P Q : ℕ} (hQ : 1 ≤ Q) (hdvd : Q ∣ P) :
    ((rdivNE P Q : ℕ) : ℚ) = (P:ℚ) / Q := by
  obtain ⟨c, rfl⟩ := hdvd
  have hQ0 : (0:ℚ) < (Q:ℚ) := by exact_mod_cast hQ
  have hd : (Q * c) / Q = c := Nat.mul_div_cancel_left c (by omega)
  have hm : (Q * c) % Q = 0 := Nat.mul_mod_right Q c
  simp only [rdivNE, hd, hm]
  rw [if_pos (by omega)]
  push_cast
  field_simp

lemma pow2le_iff {e : Int} {p q : ℕ} (hp : 1 ≤ p) (hq : 1 ≤ q) :
    pow2le e p q = true ↔ (2:ℚ)^e ≤ (p:ℚ)/q := by
  have hq0 : (0:ℚ) < (q:ℚ) := by exact_mod_cast hq
  unfold pow2le
  split_ifs with he
  · rw [decide_eq_true_eq]
    have h2 : (2:ℚ)^e = ((2 ^ e.toNat : ℕ) : ℚ) := by
      push_cast
      rw [← zpow_natCast (2:ℚ) e.toNat, Int.toNat_of_nonneg he]
    rw [h2, le_div_iff hq0]
    constructor
    · intro h
      have hc : ((q * 2 ^ e.toNat : ℕ):ℚ) ≤ (p:ℚ) := by exact_mod_cast h
      push_cast at hc ⊢
      linarith
    · intro h
      have hc : ((q * 2 ^ e.toNat : ℕ):ℚ) ≤ (p:ℚ) := by push_cast at h ⊢; linarith
      exact_mod_cast hc
  · rw [decide_eq_true_eq, le_div_iff hq0]
    have hw0 : (0:ℚ) < (2:ℚ)^((-e).toNat) := by positivity
    have hke : (2:ℚ)^e * (2:ℚ)^((-e).toNat) = 1 := by
      rw [← zpow_natCast (2:ℚ) (-e).toNat, Int.toNat_of_nonneg (by omega : (0:ℤ) ≤ -e),
        ← zpow_add₀ (two_ne_zero)]
      norm_num
    have h2e : (2:ℚ)^e = ((2:ℚ)^((-e).toNat))⁻¹ := eq_inv_of_mul_eq_one_left hke
    rw [h2e]
    constructor
    · intro h
      have hc : (q:ℚ) ≤ (p:ℚ) * (2:ℚ)^((-e).toNat) := by
        have := (Nat.cast_le (α := ℚ)).2 h
        push_cast at this
        linarith
      rw [inv_mul_eq_div, div_le_iff hw0]
      linarith
    · intro h
      rw [inv_mul_eq_div, div_le_iff hw0] at h
      have hc : (q:ℚ) ≤ ((p * 2 ^ (-e).toNat : ℕ):ℚ) := by push_cast; linarith
      exact_mod_cast hc

lemma frexpE_spec {p q : ℕ} (hp : 1 ≤ p) (hq : 1 ≤ q) :
    (2:ℚ)^(frexpE p q) ≤ (p:ℚ)/q ∧ (p:ℚ)/q < (2:ℚ)^(frexpE p q + 1) := by
  obtain ⟨hpl, hpu⟩ := ilog2_spec hp
  obtain ⟨hql, hqu⟩ := ilog2_spec hq
  have hq0 : (0:ℚ) < (q:ℚ) := by exact_mod_cast hq
  have hplQ : (2:ℚ)^(ilog2 p) ≤ (p:ℚ) := by exact_mod_cast hpl
  have hpuQ : (p:ℚ) < 2^(ilog2 p + 1) := by exact_mod_cast hpu
  have hqlQ : (2:ℚ)^(ilog2 q) ≤ (q:ℚ) := by exact_mod_cast hql
  have hquQ : (q:ℚ) < 2^(ilog2 q + 1) := by exact_mod_cast hqu
  have upper : (p:ℚ)/q < (2:ℚ)^((ilog2 p : ℤ) - (ilog2 q : ℤ) + 1) := by
    rw [div_lt_iff hq0]
    have hsplit : (2:ℚ)^((ilog2 p : ℤ) - (ilog2 q : ℤ) + 1) * (2:ℚ)^(ilog2 q) =
        (2:ℚ)^(ilog2 p + 1) := by
      rw [← zpow_natCast (2:ℚ) (ilog2 q), ← zpow_add₀ (two_ne_zero),
        ← zpow_natCast (2:ℚ) (ilog2 p + 1)]
      congr 1
      push_cast
      ring
    have hpos : (0:ℚ) < (2:ℚ)^((ilog2 p : ℤ) - (ilog2 q : ℤ) + 1) := by positivity
    nlinarith [hsplit, hpos, hqlQ, hpuQ]
  have lower : (2:ℚ)^((ilog2 p : ℤ) - (ilog2 q : ℤ) - 1) ≤ (p:ℚ)/q := by
    rw [le_div_iff hq0]
    have hsplit : (2:ℚ)^((ilog2 p : ℤ) - (ilog2 q : ℤ) - 1) * (2:ℚ)^(ilog2 q + 1) =
        (2:ℚ)^(ilog2 p) := by
      rw [← zpow_natCast (2:ℚ) (ilog2 q + 1), ← zpow_add₀ (two_ne_zero),
        ← zpow_natCast (2:ℚ) (ilog2 p)]
      congr 1
      push_cast
      ring
    have hpos : (0:ℚ) < (2:ℚ)^((ilog2 p : ℤ) - (ilog2 q : ℤ) - 1) := by positivity
    nlinarith [hsplit, hpos, hquQ, hplQ]
  unfold frexpE
  dsimp only
  split_ifs with hcase
  · exact ⟨(pow2le_iff hp hq).1 hcase, upper⟩
  · have hnot : ¬ ((2:ℚ)^((ilog2 p : ℤ) - (ilog2 q : ℤ)) ≤ (p:ℚ)/q) := by
      intro hcon
      exact hcase ((pow2le_iff hp hq).2 hcon)
    constructor
    · exact lower
    · have : (ilog2 p : ℤ) - (ilog2 q : ℤ) - 1 + 1 = (ilog2 p : ℤ) - (ilog2 q : ℤ) := by ring
      rw [this]
      linarith [not_le.1 hnot]

lemma two_zpow_pos (n : ℤ) : (0:ℚ) < (2:ℚ)^n := by positivity

lemma two_zpow_mono {m n : ℤ} (h : m ≤ n) : (2:ℚ)^m ≤ (2:ℚ)^n := by
  have hk : (2:ℚ)^n = (2:ℚ)^m * (2:ℚ)^((n - m).toNat) := by
    rw [← zpow_natCast (2:ℚ) (n - m).toNat, Int.toNat_of_nonneg (by omega),
      ← zpow_add₀ (two_ne_zero)]
    congr 1
    ring
  have h1 : (1:ℚ) ≤ (2:ℚ)^((n - m).toNat) := one_le_pow₀ (by norm_num)
  nlinarith [two_zpow_pos m]

/-- Common final step of the rounding error bound: a half-unit error at scale
`w = 2 ^ (e - 52)` is at most a relative error of `2 ^ (-53)`. -/
lemma round_err_assemble {m y x w : ℚ} (hw : 0 < w) (hrd : |m - y| ≤ 1/2)
    (hyw : y * w = x) (hhalfw : 1/2 * w ≤ x * (2:ℚ)^(-(53:ℤ))) :
    |m * w - x| ≤ x * (2:ℚ)^(-(53:ℤ)) := by
  calc |m * w - x| = |(m - y) * w| := by rw [sub_mul, hyw]
    _ = |m - y| * w := by rw [abs_mul, abs_of_pos hw]
    _ ≤ 1/2 * w := mul_le_mul_of_nonneg_right hrd hw.le
    _ ≤ x * (2:ℚ)^(-(53:ℤ)) := hhalfw

lemma half_w_bound {e : ℤ} {x : ℚ} (he1 : (2:ℚ)^e ≤ x) :
    1/2 * (2:ℚ)^(e - 52) ≤ x * (2:ℚ)^(-(53:ℤ)) := by
  have hsplit : 1/2 * (2:ℚ)^(e - 52) = (2:ℚ)^e * (2:ℚ)^(-(53:ℤ)) := by
    rw [show (e - 52:ℤ) = e + -(52:ℤ) from by ring, zpow_add₀ (two_ne_zero)]
    have h52 : (2:ℚ)^(-(52:ℤ)) = 2 * (2:ℚ)^(-(53:ℤ)) := by
      rw [show (-(52:ℤ)) = 1 + -(53:ℤ) from by ring, zpow_add₀ (two_ne_zero)]
      norm_num
    rw [h52]
    ring
  rw [hsplit]
  nlinarith [two_zpow_pos (-(53:ℤ))]

lemma roundPosRat_err {p q : ℕ} (hp : 1 ≤ p) (hq : 1 ≤ q)
    (hx600 : (2:ℚ)^(-(600:ℤ)) ≤ (p:ℚ)/q) :
    |((roundPosRat p q).1 : ℚ) * (2:ℚ)^(roundPosRat p q).2 - (p:ℚ)/q| ≤
      (p:ℚ)/q * (2:ℚ)^(-(53:ℤ)) := by
  obtain ⟨he1, he2⟩ := frexpE_spec hp hq
  have hq0 : (0:ℚ) < (q:ℚ) := by exact_mod_cast hq
  obtain ⟨e, hE⟩ : ∃ x, x = frexpE p q := ⟨_, rfl⟩
  rw [← hE] at he1 he2
  have hegeq : -601 ≤ e := by
    by_contra hcon
    push_neg at hcon
    have h1 : (2:ℚ)^(e + 1) ≤ (2:ℚ)^(-(600:ℤ)) := two_zpow_mono (by omega)
    exact absurd (lt_of_lt_of_le he2 (le_trans h1 hx600)) (lt_irrefl _)
  unfold roundPosRat
  rw [← hE]
  rw [if_neg (by omega : ¬ e < -1022)]
  split_ifs with hle52
  · -- normal branch, e ≤ 52: scale the numerator
    have hj : (((52 - e).toNat : ℕ) : ℤ) = 52 - e := Int.toNat_of_nonneg (by omega)
    have hP1 : 1 ≤ p * 2 ^ (52 - e).toNat := Nat.mul_pos hp (Nat.pow_pos (by norm_num))
    have hy : ((p * 2 ^ (52 - e).toNat : ℕ):ℚ) / q = (p:ℚ)/q * (2:ℚ)^((52:ℤ) - e) := by
      push_cast
      rw [← zpow_natCast (2:ℚ) (52 - e).toNat, hj]
      ring
    have hrd := rdivNE_err (P := p * 2 ^ (52 - e).toNat) hq
    rw [hy] at hrd
    have hscale : (2:ℚ)^((52:ℤ) - e) * (2:ℚ)^(e - 52) = 1 := by
      rw [← zpow_add₀ (two_ne_zero)]
      norm_num
    refine round_err_assemble (two_zpow_pos _) hrd ?_ (half_w_bound he1)
    rw [mul_assoc, hscale, mul_one]
  · -- normal branch, e ≥ 53: scale the denominator
    have hj : (((e - 52).toNat : ℕ) : ℤ) = e - 52 := Int.toNat_of_nonneg (by omega)
    have hQ1 : 1 ≤ q * 2 ^ (e - 52).toNat := Nat.mul_pos hq (Nat.pow_pos (by norm_num))
    have hy : (p:ℚ) / ((q * 2 ^ (e - 52).toNat : ℕ):ℚ) = (p:ℚ)/q * (2:ℚ)^((52:ℤ) - e) := by
      push_cast
      rw [← zpow_natCast (2:ℚ) (e - 52).toNat, hj,
        show ((52:ℤ) - e) = -(e - 52) from by ring, zpow_neg]
      rw [div_mul_eq_div_div_swap, div_div]
      rw [division_def, division_def, mul_inv]
      ring
    have hrd := rdivNE_err (P := p) hQ1
    rw [hy] at hrd
    have hscale : (2:ℚ)^((52:ℤ) - e) * (2:ℚ)^(e - 52) = 1 := by
      rw [← zpow_add₀ (two_ne_zero)]
      norm_num
    refine round_err_assemble (two_zpow_pos _) hrd ?_ (half_w_bound he1)
    rw [mul_assoc, hscale, mul_one]

set_option maxRecDepth 2000 in
lemma roundPosRat_le_one {p q : ℕ} (hp : 1 ≤ p) (hq : 1 ≤ q) (hx1 : (p:ℚ)/q ≤ 1) :
    ((roundPosRat p q).1 : ℚ) * (2:ℚ)^(roundPosRat p q).2 ≤ 1 := by
  obtain ⟨he1, he2⟩ := frexpE_spec hp hq
  have hq0 : (0:ℚ) < (q:ℚ) := by exact_mod_cast hq
  obtain ⟨e, hE⟩ : ∃ x, x = frexpE p q := ⟨_, rfl⟩
  rw [← hE] at he1 he2
  have he0 : e ≤ 0 := by
    by_contra hcon
    push_neg at hcon
    have h1 : (2:ℚ)^(1:ℤ) ≤ (2:ℚ)^e := two_zpow_mono (by omega)
    have h2 : (2:ℚ)^(1:ℤ) = 2 := by norm_num
    linarith
  unfold roundPosRat
  rw [← hE]
  dsimp only
  split_ifs with hsub hle52
  · -- subnormal branch
    have hP1 : 1 ≤ p * 2 ^ 1074 := Nat.mul_pos hp (Nat.pow_pos (by norm_num))
    have hle := rdivNE_le (P := p * 2 ^ 1074) hq
    have hy : ((p * 2 ^ 1074 : ℕ):ℚ) / q = (p:ℚ)/q * (2:ℚ)^(1074:ℕ) := by
      push_cast
      ring
    rw [hy] at hle
    have hyb : (p:ℚ)/q * (2:ℚ)^(1074:ℕ) < (2:ℚ)^(52:ℤ) := by
      have hsplit : (2:ℚ)^(e+1) * (2:ℚ)^(1074:ℕ) = (2:ℚ)^(e + 1 + 1074) := by
        rw [← zpow_natCast (2:ℚ) 1074, ← zpow_add₀ (two_ne_zero)]
        norm_num
      have hmono : (2:ℚ)^(e + 1 + 1074) ≤ (2:ℚ)^(52:ℤ) := two_zpow_mono (by omega)
      calc (p:ℚ)/q * (2:ℚ)^(1074:ℕ) < (2:ℚ)^(e+1) * (2:ℚ)^(1074:ℕ) :=
          mul_lt_mul_of_pos_right he2 (pow_pos (by norm_num) 1074)
        _ = (2:ℚ)^(e + 1 + 1074) := hsplit
        _ ≤ (2:ℚ)^(52:ℤ) := hmono
    have hm : ((rdivNE (p * 2 ^ 1074) q : ℕ) : ℚ) < (2:ℚ)^(52:ℤ) + 1/2 := by linarith
    have hmN : (rdivNE (p * 2 ^ 1074) q : ℕ) ≤ 2 ^ 52 := by
      have h1 : (2:ℚ)^(52:ℤ) = ((2 ^ 52 : ℕ) : ℚ) := by norm_num
      rw [h1] at hm
      by_contra hcon
      push_neg at hcon
      have hc : ((2 ^ 52 + 1 : ℕ) : ℚ) ≤ ((rdivNE (p * 2 ^ 1074) q : ℕ) : ℚ) :=
        Nat.cast_le.2 hcon
      have hsplit : ((2 ^ 52 + 1 : ℕ) : ℚ) = ((2 ^ 52 : ℕ) : ℚ) + 1 := by
        rw [Nat.cast_add, Nat.cast_one]
      rw [hsplit] at hc
      have hfinal : ((2 ^ 52 : ℕ) : ℚ) + 1 < ((2 ^ 52 : ℕ) : ℚ) + 1/2 :=
        lt_of_le_of_lt hc hm
      linarith only [hfinal]
    have hcast : ((rdivNE (p * 2 ^ 1074) q : ℕ) : ℚ) ≤ (2:ℚ)^(52:ℤ) := by
      have h1 : (2:ℚ)^(52:ℤ) = ((2 ^ 52 : ℕ) : ℚ) := by norm_num
      rw [h1]
      exact_mod_cast hmN
    calc ((rdivNE (p * 2 ^ 1074) q : ℕ) : ℚ) * (2:ℚ)^(-(1074:ℤ)) ≤
        (2:ℚ)^(52:ℤ) * (2:ℚ)^(-(1074:ℤ)) :=
          mul_le_mul_of_nonneg_right hcast (two_zpow_pos _).le
      _ = (2:ℚ)^((52:ℤ) - 1074) := by
          rw [← zpow_add₀ (two_ne_zero)]
          norm_num
      _ ≤ (2:ℚ)^(0:ℤ) := two_zpow_mono (by omega)
      _ = 1 := by norm_num
  · -- normal branch with e ≤ 52 (always taken since e ≤ 0)
    have hle := rdivNE_le (P := p * 2 ^ (52 - e).toNat) hq
    have hj : (((52 - e).toNat : ℕ) : ℤ) = 52 - e := Int.toNat_of_nonneg (by omega)
    have hy : ((p * 2 ^ (52 - e).toNat : ℕ):ℚ) / q = (p:ℚ)/q * (2:ℚ)^((52:ℤ) - e) := by
      push_cast
      rw [← zpow_natCast (2:ℚ) (52 - e).toNat, hj]
      ring
    rw [hy] at hle
    have hyb : (p:ℚ)/q * (2:ℚ)^((52:ℤ) - e) ≤ (2:ℚ)^((52:ℤ) - e) := by
      nlinarith [two_zpow_pos ((52:ℤ) - e)]
    have hpow_eq : (2:ℚ)^((52:ℤ) - e) = ((2 ^ (52 - e).toNat : ℕ) : ℚ) := by
      push_cast
      rw [← zpow_natCast (2:ℚ) (52 - e).toNat, hj]
    have hm : ((rdivNE (p * 2 ^ (52 - e).toNat) q : ℕ) : ℚ) <
        ((2 ^ (52 - e).toNat : ℕ) : ℚ) + 1 := by
      rw [← hpow_eq]
      linarith
    have hmN : (rdivNE (p * 2 ^ (52 - e).toNat) q : ℕ) ≤ 2 ^ (52 - e).toNat := by
      have h2 : ((rdivNE (p * 2 ^ (52 - e).toNat) q : ℕ) : ℚ) <
          ((2 ^ (52 - e).toNat + 1 : ℕ) : ℚ) := by
        push_cast
        push_cast at hm
        linarith
      exact Nat.lt_succ_iff.1 (by exact_mod_cast h2)
    have hcast : ((rdivNE (p * 2 ^ (52 - e).toNat) q : ℕ) : ℚ) ≤ (2:ℚ)^((52:ℤ) - e) := by
      rw [hpow_eq]
      exact_mod_cast hmN
    have hscale : (2:ℚ)^((52:ℤ) - e) * (2:ℚ)^(e - 52) = 1 := by
      rw [← zpow_add₀ (two_ne_zero)]
      norm_num
    calc ((rdivNE (p * 2 ^ (52 - e).toNat) q : ℕ) : ℚ) * (2:ℚ)^(e - 52) ≤
        (2:ℚ)^((52:ℤ) - e) * (2:ℚ)^(e - 52) :=
          mul_le_mul_of_nonneg_right hcast (two_zpow_pos _).le
      _ = 1 := hscale
  · omega

lemma roundPosRat_exact_int {n q : ℕ} (hn : 1 ≤ n) (hn2 : n ≤ 2 ^ 53) (hq : 1 ≤ q) :
    ((roundPosRat (n * q) q).1 : ℚ) * (2:ℚ)^(roundPosRat (n * q) q).2 = (n:ℚ) := by
  have hq0 : (0:ℚ) < (q:ℚ) := by exact_mod_cast hq
  have hp : 1 ≤ n * q := Nat.mul_pos hn hq
  obtain ⟨he1, he2⟩ := frexpE_spec hp hq
  have hx : ((n * q : ℕ):ℚ) / q = (n:ℚ) := by
    push_cast
    field_simp
  rw [hx] at he1 he2
  obtain ⟨e, hE⟩ : ∃ x, x = frexpE (n * q) q := ⟨_, rfl⟩
  rw [← hE] at he1 he2
  have he0 : 0 ≤ e := by
    by_contra hcon
    push_neg at hcon
    have h1 : (2:ℚ)^(e + 1) ≤ (2:ℚ)^(0:ℤ) := two_zpow_mono (by omega)
    have h2 : (1:ℚ) ≤ (n:ℚ) := by exact_mod_cast hn
    have h3 : (2:ℚ)^(0:ℤ) = 1 := by norm_num
    linarith
  have he53 : e ≤ 53 := by
    by_contra hcon
    push_neg at hcon
    have h1 : (2:ℚ)^(54:ℤ) ≤ (2:ℚ)^e := two_zpow_mono (by omega)
    have h2 : (n:ℚ) ≤ ((2 ^ 53 : ℕ):ℚ) := Nat.cast_le.2 hn2
    have h3 : ((2 ^ 53 : ℕ):ℚ) < (2:ℚ)^(54:ℤ) := by norm_num
    linarith
  unfold roundPosRat
  rw [← hE]
  dsimp only
  rw [if_neg (by omega : ¬ e < -1022)]
  split_ifs with hle52
  · -- e ≤ 52: the scaled numerator is an exact multiple of q
    have hj : (((52 - e).toNat : ℕ) : ℤ) = 52 - e := Int.toNat_of_nonneg (by omega)
    have hdvd : q ∣ n * q * 2 ^ (52 - e).toNat := ⟨n * 2 ^ (52 - e).toNat, by ring⟩
    rw [rdivNE_exact hq hdvd]
    have hy : ((n * q * 2 ^ (52 - e).toNat : ℕ):ℚ) / q = (n:ℚ) * (2:ℚ)^((52:ℤ) - e) := by
      push_cast
      rw [← zpow_natCast (2:ℚ) (52 - e).toNat, hj]
      field_simp
      ring
    rw [hy, mul_assoc, ← zpow_add₀ (two_ne_zero)]
    norm_num
  · -- e = 53, so n = 2 ^ 53 exactly
    have he : e = 53 := by omega
    subst he
    have hn53 : (2 ^ 53 : ℕ) ≤ n := by
      have h1 : (2:ℚ)^(53:ℤ) = ((2 ^ 53 : ℕ):ℚ) := by norm_num
      rw [h1] at he1
      exact_mod_cast he1
    have hneq : n = 2 ^ 53 := le_antisymm hn2 hn53
    subst hneq
    have hk : ((53:ℤ) - 52).toNat = 1 := by norm_num
    rw [hk]
    have hdvd : q * 2 ^ 1 ∣ 2 ^ 53 * q := ⟨2 ^ 52, by ring⟩
    have hq2 : 1 ≤ q * 2 ^ 1 := Nat.mul_pos hq (by norm_num)
    rw [rdivNE_exact hq2 hdvd]
    have hy : ((2 ^ 53 * q : ℕ):ℚ) / ((q * 2 ^ 1 : ℕ):ℚ) = ((2 ^ 52 : ℕ):ℚ) := by
      push_cast
      rw [div_eq_iff (by positivity : ((q:ℚ) * 2) ≠ 0)]
      ring
    rw [hy]
    norm_num

lemma roundQ_zero (q : ℤ) : roundQ 0 q = ⟨0, 0⟩ := by
  simp [roundQ]

lemma roundQ_of_pos {p : ℤ} (q : ℤ) (hp : 0 < p) :
    roundQ p q = ⟨((roundPosRat p.toNat q.toNat).1 : ℤ), (roundPosRat p.toNat q.toNat).2⟩ := by
  rw [roundQ, if_neg (by omega), if_pos hp]

lemma roundQ_m_nonneg {p : ℤ} (q : ℤ) (hp : 0 ≤ p) : 0 ≤ (roundQ p q).m := by
  rcases eq_or_lt_of_le hp with h | h
  · rw [← h, roundQ_zero]
  · rw [roundQ_of_pos q h]
    exact Int.natCast_nonneg _

lemma val_nonneg_of_m {f : Fp64} (h : 0 ≤ f.m) : 0 ≤ val f :=
  mul_nonneg (by exact_mod_cast h) (two_zpow_pos f.ex).le

lemma val_pos_of_m {f : Fp64} (h : 0 < f.m) : 0 < val f :=
  mul_pos (by exact_mod_cast h) (two_zpow_pos f.ex)

lemma val_neg_of_m {f : Fp64} (h : f.m < 0) : val f < 0 :=
  mul_neg_of_neg_of_pos (by exact_mod_cast h) (two_zpow_pos f.ex)

lemma roundQ_err {p q : ℤ} (hp : 0 < p) (hq : 0 < q)
    (hx600 : (2:ℚ)^(-(600:ℤ)) ≤ (p:ℚ)/q) :
    |val (roundQ p q) - (p:ℚ)/q| ≤ (p:ℚ)/q * (2:ℚ)^(-(53:ℤ)) := by
  rw [roundQ_of_pos q hp]
  have hpc : ((p.toNat : ℕ) : ℚ) = (p:ℚ) := by exact_mod_cast Int.toNat_of_nonneg hp.le
  have hqc : ((q.toNat : ℕ) : ℚ) = (q:ℚ) := by exact_mod_cast Int.toNat_of_nonneg hq.le
  have h := roundPosRat_err (p := p.toNat) (q := q.toNat) (by omega) (by omega)
    (by rw [hpc, hqc]; exact hx600)
  rw [hpc, hqc] at h
  simpa [val] using h

lemma roundQ_le_one {p q : ℤ} (hp : 0 ≤ p) (hq : 0 < q) (hpq : p ≤ q) :
    val (roundQ p q) ≤ 1 := by
  rcases eq_or_lt_of_le hp with h | h
  · rw [← h, roundQ_zero]
    norm_num [val]
  · rw [roundQ_of_pos q h]
    have hpc : ((p.toNat : ℕ) : ℚ) = (p:ℚ) := by exact_mod_cast Int.toNat_of_nonneg hp
    have hqc : ((q.toNat : ℕ) : ℚ) = (q:ℚ) := by exact_mod_cast Int.toNat_of_nonneg hq.le
    have hq0 : (0:ℚ) < (q:ℚ) := by exact_mod_cast hq
    have hx1 : ((p.toNat : ℕ):ℚ) / (q.toNat : ℕ) ≤ 1 := by
      rw [hpc, hqc, div_le_one hq0]
      exact_mod_cast hpq
    have h2 := roundPosRat_le_one (p := p.toNat) (q := q.toNat) (by omega) (by omega) hx1
    simpa [val] using h2

lemma roundQ_int_exact {n q : ℤ} (hn : 0 ≤ n) (hn2 : n ≤ 2 ^ 53) (hq : 0 < q) :
    val (roundQ (n * q) q) = (n:ℚ) := by
  rcases eq_or_lt_of_le hn with h | h
  · rw [← h]
    rw [show ((0:ℤ) * q) = 0 from by ring, roundQ_zero]
    norm_num [val]
  · have hpos : 0 < n * q := mul_pos h hq
    rw [roundQ_of_pos q hpos]
    have hNQ : (n * q).toNat = n.toNat * q.toNat := by
      have h3 : ((n * q).toNat : ℤ) = ((n.toNat * q.toNat : ℕ) : ℤ) := by
        push_cast
        rw [Int.toNat_of_nonneg hpos.le, Int.toNat_of_nonneg hn, Int.toNat_of_nonneg hq.le]
      exact_mod_cast h3
    rw [hNQ]
    have hn1 : 1 ≤ n.toNat := by omega
    have hn2N : n.toNat ≤ 2 ^ 53 := by
      have hlit : (2:ℤ) ^ 53 = 9007199254740992 := by norm_num
      have hlitN : (2:ℕ) ^ 53 = 9007199254740992 := by norm_num
      omega
    have hq1 : 1 ≤ q.toNat := by omega
    have h4 := roundPosRat_exact_int hn1 hn2N hq1
    have hnc : ((n.toNat : ℕ) : ℚ) = (n:ℚ) := by exact_mod_cast Int.toNat_of_nonneg hn
    rw [hnc] at h4
    simpa [val] using h4

lemma roundDyadic_zero (e : ℤ) : roundDyadic 0 e = ⟨0, 0⟩ := by
  unfold roundDyadic
  split_ifs <;> simp [roundQ]

lemma roundDyadic_m_nonneg {m : ℤ} (e : ℤ) (h : 0 ≤ m) : 0 ≤ (roundDyadic m e).m := by
  unfold roundDyadic
  split_ifs
  · exact roundQ_m_nonneg _ (by positivity)
  · exact roundQ_m_nonneg _ h

lemma roundDyadic_err {m e : ℤ} (hm : 0 < m)
    (hlow : (2:ℚ)^(-(600:ℤ)) ≤ (m:ℚ) * (2:ℚ)^e) :
    |val (roundDyadic m e) - (m:ℚ) * (2:ℚ)^e| ≤ (m:ℚ) * (2:ℚ)^e * (2:ℚ)^(-(53:ℤ)) := by
  unfold roundDyadic
  split_ifs with he
  · have hratio : ((m * 2 ^ e.toNat : ℤ):ℚ) / ((1:ℤ):ℚ) = (m:ℚ) * (2:ℚ)^e := by
      push_cast
      rw [← zpow_natCast (2:ℚ) e.toNat, Int.toNat_of_nonneg he]
      ring
    have h := roundQ_err (p := m * 2 ^ e.toNat) (q := 1) (by positivity) (by norm_num)
      (by rw [hratio]; exact hlow)
    rw [hratio] at h
    exact h
  · have hq : (0:ℤ) < 2 ^ (-e).toNat := by positivity
    have hratio : ((m:ℤ):ℚ) / (((2:ℤ) ^ (-e).toNat : ℤ):ℚ) = (m:ℚ) * (2:ℚ)^e := by
      push_cast
      rw [← zpow_natCast (2:ℚ) (-e).toNat, Int.toNat_of_nonneg (by omega : (0:ℤ) ≤ -e),
        show (2:ℚ)^(-e) = ((2:ℚ)^e)⁻¹ from by rw [zpow_neg], div_eq_mul_inv, inv_inv]
    have h := roundQ_err (p := m) (q := 2 ^ (-e).toNat) hm hq
      (by rw [hratio]; exact hlow)
    rw [hratio] at h
    exact h

lemma roundDyadic_int_exact {m e n : ℤ} (hval : (m:ℚ) * (2:ℚ)^e = (n:ℚ))
    (hn : 0 ≤ n) (hn2 : n ≤ 2 ^ 53) : val (roundDyadic m e) = (n:ℚ) := by
  unfold roundDyadic
  split_ifs with he
  · have hm : m * 2 ^ e.toNat = n * 1 := by
      have hc : ((m * 2 ^ e.toNat : ℤ):ℚ) = ((n * 1 : ℤ):ℚ) := by
        push_cast
        rw [← zpow_natCast (2:ℚ) e.toNat, Int.toNat_of_nonneg he]
        rw [hval]
        ring
      exact_mod_cast hc
    rw [hm]
    exact roundQ_int_exact hn hn2 (by norm_num)
  · have hq : (0:ℤ) < 2 ^ (-e).toNat := by positivity
    have hm : m = n * 2 ^ (-e).toNat := by
      have hpow : (2:ℚ)^e * (2:ℚ)^((-e).toNat : ℕ) = 1 := by
        rw [← zpow_natCast (2:ℚ) (-e).toNat, Int.toNat_of_nonneg (by omega : (0:ℤ) ≤ -e),
          ← zpow_add₀ (two_ne_zero)]
        norm_num
      have hc : ((m:ℤ):ℚ) = ((n * 2 ^ (-e).toNat : ℤ):ℚ) := by
        push_cast
        have h2 : (m:ℚ) * ((2:ℚ)^e * (2:ℚ)^((-e).toNat : ℕ)) =
            (n:ℚ) * (2:ℚ)^((-e).toNat : ℕ) := by
          rw [← mul_assoc, hval]
        rw [hpow, mul_one] at h2
        exact h2
      exact_mod_cast hc
    rw [hm]
    exact roundQ_int_exact hn hn2 hq

lemma toFrac_den_pos (f : Fp64) : 0 < (toFrac f).2 := by
  unfold toFrac
  split_ifs <;> positivity

lemma toFrac_val (f : Fp64) : ((toFrac f).1 : ℚ) = val f * ((toFrac f).2 : ℚ) := by
  unfold toFrac val
  split_ifs with h
  · push_cast
    rw [← zpow_natCast (2:ℚ) f.ex.toNat, Int.toNat_of_nonneg h]
    ring
  · push_cast
    rw [← zpow_natCast (2:ℚ) (-f.ex).toNat, Int.toNat_of_nonneg (by omega : (0:ℤ) ≤ -f.ex),
      show (2:ℚ)^(-f.ex) = ((2:ℚ)^f.ex)⁻¹ from by rw [zpow_neg]]
    field_simp

lemma toFrac_m_nonneg {f : Fp64} (h : 0 ≤ f.m) : 0 ≤ (toFrac f).1 := by
  unfold toFrac
  split_ifs
  · positivity
  · exact h

/-- The exact product value written as a dyadic. -/
lemma fmul_input_val (a b : Fp64) :
    ((a.m * b.m : ℤ):ℚ) * (2:ℚ)^(a.ex + b.ex) = val a * val b := by
  unfold val
  push_cast
  rw [zpow_add₀ (two_ne_zero)]
  ring

lemma fmul_err {a b : Fp64} (ha : 0 ≤ a.m) (hb : 0 ≤ b.m)
    (hlow : (2:ℚ)^(-(600:ℤ)) ≤ val a * val b) :
    |val (fmul a b) - val a * val b| ≤ val a * val b * (2:ℚ)^(-(53:ℤ)) ∧
    0 ≤ (fmul a b).m := by
  have hm : 0 < a.m * b.m := by
    have hv : (0:ℚ) < val a * val b := lt_of_lt_of_le (two_zpow_pos _) hlow
    rw [← fmul_input_val] at hv
    by_contra hcon
    push_neg at hcon
    have hc : ((a.m * b.m : ℤ):ℚ) ≤ 0 := by exact_mod_cast hcon
    nlinarith [two_zpow_pos (a.ex + b.ex)]
  constructor
  · have h := roundDyadic_err hm (by rw [fmul_input_val]; exact hlow)
    rw [fmul_input_val] at h
    exact h
  · exact roundDyadic_m_nonneg _ (by positivity)

lemma fmul_exact {a b : Fp64} {n : ℤ} (hval : val a * val b = (n:ℚ))
    (hn : 0 ≤ n) (hn2 : n ≤ 2 ^ 53) : val (fmul a b) = (n:ℚ) :=
  roundDyadic_int_exact (by rw [fmul_input_val]; exact hval) hn hn2

lemma fsub_one_err {f : Fp64} (hle : val f ≤ 1)
    (hgap : (2:ℚ)^(-(600:ℤ)) ≤ 1 - val f) :
    |val (fsub_one f) - (1 - val f)| ≤ (1 - val f) * (2:ℚ)^(-(53:ℤ)) ∧
    0 ≤ (fsub_one f).m := by
  have hQ := toFrac_den_pos f
  have hP := toFrac_val f
  have hQ0 : (0:ℚ) < ((toFrac f).2 : ℚ) := by exact_mod_cast hQ
  have hratio : (((toFrac f).2 - (toFrac f).1 : ℤ):ℚ) / ((toFrac f).2 : ℚ) = 1 - val f := by
    push_cast
    rw [hP]
    field_simp
    ring
  have hpos : 0 < (toFrac f).2 - (toFrac f).1 := by
    have hv : (0:ℚ) < 1 - val f := lt_of_lt_of_le (two_zpow_pos _) hgap
    have h2 : (0:ℚ) < (((toFrac f).2 - (toFrac f).1 : ℤ):ℚ) := by
      push_cast
      rw [hP]
      nlinarith
    exact_mod_cast h2
  constructor
  · have h := roundQ_err hpos hQ (by rw [hratio]; exact hgap)
    rw [hratio] at h
    exact h
  · exact roundQ_m_nonneg _ hpos.le

lemma fsub_one_of_val_one {f : Fp64} (h : val f = 1) : fsub_one f = ⟨0, 0⟩ := by
  have hP := toFrac_val f
  rw [h, one_mul] at hP
  have hPQ : (toFrac f).1 = (toFrac f).2 := by exact_mod_cast hP
  unfold fsub_one
  dsimp only
  rw [show (toFrac f).2 - (toFrac f).1 = 0 from by omega]
  exact roundQ_zero _

lemma fadd_one_err {f : Fp64} (hm0 : 0 ≤ f.m) :
    |val (fadd_one f) - (1 + val f)| ≤ (1 + val f) * (2:ℚ)^(-(53:ℤ)) ∧
    0 ≤ (fadd_one f).m := by
  have hQ := toFrac_den_pos f
  have hP := toFrac_val f
  have hPm := toFrac_m_nonneg hm0
  have hQ0 : (0:ℚ) < ((toFrac f).2 : ℚ) := by exact_mod_cast hQ
  have hvf : 0 ≤ val f := val_nonneg_of_m hm0
  have hratio : (((toFrac f).2 + (toFrac f).1 : ℤ):ℚ) / ((toFrac f).2 : ℚ) = 1 + val f := by
    push_cast
    rw [hP]
    field_simp
    ring
  have hpos : 0 < (toFrac f).2 + (toFrac f).1 := by omega
  have hgap : (2:ℚ)^(-(600:ℤ)) ≤ 1 + val f := by
    have h1 : (2:ℚ)^(-(600:ℤ)) ≤ (2:ℚ)^(0:ℤ) := two_zpow_mono (by omega)
    have h2 : (2:ℚ)^(0:ℤ) = 1 := by norm_num
    linarith
  constructor
  · have h := roundQ_err hpos hQ (by rw [hratio]; exact hgap)
    rw [hratio] at h
    exact h
  · exact roundQ_m_nonneg _ hpos.le

lemma float_of_int_exact {n : ℤ} (h0 : 0 ≤ n) (h1 : n ≤ 2 ^ 53) :
    val (float_of_int n) = (n:ℚ) := by
  unfold float_of_int
  have h := roundQ_int_exact h0 h1 (show (0:ℤ) < 1 by norm_num)
  rw [mul_one] at h
  exact h

lemma float_of_int_m_nonneg {n : ℤ} (h0 : 0 ≤ n) : 0 ≤ (float_of_int n).m :=
  roundQ_m_nonneg _ h0

lemma ftrunc_eq_floor {f : Fp64} (hm : 0 ≤ f.m) : ftrunc f = ⌊val f⌋ := by
  unfold ftrunc val
  split_ifs with h1 h2
  · have : ((f.m * 2 ^ f.ex.toNat : ℤ):ℚ) = (f.m : ℚ) * (2:ℚ)^f.ex := by
      push_cast
      rw [← zpow_natCast (2:ℚ) f.ex.toNat, Int.toNat_of_nonneg h1]
    rw [← this, Int.floor_intCast]
  · have hpow : (0:ℤ) < 2 ^ (-f.ex).toNat := by positivity
    have hval : (f.m : ℚ) * (2:ℚ)^f.ex = (f.m : ℚ) / (((2:ℤ) ^ (-f.ex).toNat : ℤ):ℚ) := by
      push_cast
      rw [← zpow_natCast (2:ℚ) (-f.ex).toNat, Int.toNat_of_nonneg (by omega : (0:ℤ) ≤ -f.ex),
        show (2:ℚ)^(-f.ex) = ((2:ℚ)^f.ex)⁻¹ from by rw [zpow_neg]]
      field_simp
    rw [hval]
    rw [← int_ediv_eq_floor hpow]

lemma fleInt_iff (f : Fp64) (n : ℤ) : fleInt f n = true ↔ val f ≤ (n:ℚ) := by
  unfold fleInt val
  split_ifs with h
  · rw [decide_eq_true_eq]
    have hc : ((f.m * 2 ^ f.ex.toNat : ℤ):ℚ) = (f.m : ℚ) * (2:ℚ)^f.ex := by
      push_cast
      rw [← zpow_natCast (2:ℚ) f.ex.toNat, Int.toNat_of_nonneg h]
    constructor
    · intro hle
      rw [← hc]
      exact_mod_cast hle
    · intro hle
      rw [← hc] at hle
      exact_mod_cast hle
  · rw [decide_eq_true_eq]
    have hpow : (0:ℚ) < (((2:ℤ) ^ (-f.ex).toNat : ℤ):ℚ) := by positivity
    have hval : (f.m : ℚ) * (2:ℚ)^f.ex = (f.m : ℚ) / (((2:ℤ) ^ (-f.ex).toNat : ℤ):ℚ) := by
      push_cast
      rw [← zpow_natCast (2:ℚ) (-f.ex).toNat, Int.toNat_of_nonneg (by omega : (0:ℤ) ≤ -f.ex),
        show (2:ℚ)^(-f.ex) = ((2:ℚ)^f.ex)⁻¹ from by rw [zpow_neg]]
      field_simp
    have hpc : (((2:ℤ) ^ (-f.ex).toNat : ℤ):ℚ) = (2:ℚ) ^ ((-f.ex).toNat : ℕ) := by
      push_cast
      rfl
    have key : (f.m ≤ n * 2 ^ (-f.ex).toNat) ↔
        ((f.m:ℚ) ≤ (n:ℚ) * (2:ℚ) ^ ((-f.ex).toNat : ℕ)) := by
      rw [show ((n:ℚ) * (2:ℚ) ^ ((-f.ex).toNat : ℕ)) = ((n * 2 ^ (-f.ex).toNat : ℤ):ℚ)
        from by push_cast; ring]
      exact Iff.symm Int.cast_le
    rw [hval, div_le_iff hpow, hpc]
    exact key

lemma two_zpow_neg53 : (2:ℚ)^(-(53:ℤ)) = 1/9007199254740992 := by
  rw [show (-(53:ℤ)) = -((53:ℕ):ℤ) from by norm_num, zpow_neg, zpow_natCast]
  norm_num

lemma two_zpow_neg600_le : (2:ℚ)^(-(600:ℤ)) ≤ 1/32768 := by
  have h1 : (2:ℚ)^(-(600:ℤ)) ≤ (2:ℚ)^(-(15:ℤ)) := two_zpow_mono (by omega)
  have h2 : (2:ℚ)^(-(15:ℤ)) = 1/32768 := by
    rw [show (-(15:ℤ)) = -((15:ℕ):ℤ) from by norm_num, zpow_neg, zpow_natCast]
    norm_num
  linarith

lemma fmul_zero_right (a : Fp64) : fmul a ⟨0, 0⟩ = ⟨0, 0⟩ := by
  unfold fmul
  rw [show a.m * (Fp64.mk 0 0).m = 0 from by simp]
  exact roundDyadic_zero _

lemma fmul_zero_left (b : Fp64) : fmul ⟨0, 0⟩ b = ⟨0, 0⟩ := by
  unfold fmul
  rw [show (Fp64.mk 0 0).m * b.m = 0 from by simp]
  exact roundDyadic_zero _

lemma ftrunc_zero : ftrunc ⟨0, 0⟩ = 0 := by decide

lemma float_of_int_zero : float_of_int 0 = ⟨0, 0⟩ := roundQ_zero 1

lemma fdivInt_one : val (fdivInt 10000 10000) = 1 := by
  unfold fdivInt
  have h := roundQ_int_exact (n := 1) (q := 10000) (by norm_num) (by norm_num) (by norm_num)
  rw [show ((1:ℤ) * 10000) = 10000 from by norm_num] at h
  rw [h]
  norm_num

set_option maxHeartbeats 1000000 in
/-- Error analysis of the Minimum-mode slippage computation: the truncated
float result is within one unit of the exact floor formula for amounts up to
2^50. -/
lemma slip_min_close (e t : ℤ) (he0 : 0 ≤ e) (heB : e ≤ 1125899906842624)
    (ht0 : 0 ≤ t) (ht1 : t ≤ 10000) :
    |calculate_slippage_amount e t true - (e * (10000 - t)).fdiv 10000| ≤ 1 := by
  show |ftrunc (fmul (float_of_int e) (fsub_one (fdivInt t 10000))) -
    (e * (10000 - t)).fdiv 10000| ≤ 1
  by_cases ht10k : t = 10000
  · subst ht10k
    rw [fsub_one_of_val_one fdivInt_one, fmul_zero_right, ftrunc_zero]
    rw [show (e * (10000 - 10000) : ℤ) = 0 from by ring, Int.zero_fdiv]
    norm_num
  · have ht9999 : t ≤ 9999 := by omega
    have hL : (2:ℚ)^(-(53:ℤ)) = 1/9007199254740992 := two_zpow_neg53
    have hx0 : (0:ℚ) ≤ (t:ℚ)/10000 := by positivity
    have htQ : (t:ℚ) ≤ 9999 := by exact_mod_cast ht9999
    have htQ0 : (0:ℚ) ≤ (t:ℚ) := by exact_mod_cast ht0
    have hx1 : (t:ℚ)/10000 ≤ 9999/10000 := by linarith
    have hmerr : |val (fdivInt t 10000) - (t:ℚ)/10000| ≤ (t:ℚ)/10000 * (2:ℚ)^(-(53:ℤ)) := by
      rcases eq_or_lt_of_le ht0 with h | h
      · rw [← h]
        unfold fdivInt
        rw [roundQ_zero]
        norm_num [val]
      · refine roundQ_err h (by norm_num) ?_
        have h1 : (1:ℚ) ≤ (t:ℚ) := by exact_mod_cast h
        have h2 : (1:ℚ)/10000 ≤ (t:ℚ)/10000 := by linarith
        exact le_trans two_zpow_neg600_le (by linarith)
    have hm_le1 : val (fdivInt t 10000) ≤ 1 := roundQ_le_one ht0 (by norm_num) (by omega)
    have hm_m : 0 ≤ (fdivInt t 10000).m := roundQ_m_nonneg _ ht0
    have hm_nonneg : 0 ≤ val (fdivInt t 10000) := val_nonneg_of_m hm_m
    rw [hL] at hmerr
    have habs := abs_le.1 hmerr
    have hgap2 : (1:ℚ)/16384 ≤ 1 - val (fdivInt t 10000) := by linarith [habs.2]
    have hgap : (2:ℚ)^(-(600:ℤ)) ≤ 1 - val (fdivInt t 10000) := by
      exact le_trans two_zpow_neg600_le (by linarith)
    obtain ⟨huerr, hum⟩ := fsub_one_err hm_le1 hgap
    rw [hL] at huerr
    have huabs := abs_le.1 huerr
    have hu_nonneg : 0 ≤ val (fsub_one (fdivInt t 10000)) := val_nonneg_of_m hum
    have ha_val : val (float_of_int e) = (e:ℚ) := by
      refine float_of_int_exact he0 ?_
      have : (2:ℤ)^53 = 9007199254740992 := by norm_num
      omega
    have ha_m : 0 ≤ (float_of_int e).m := float_of_int_m_nonneg he0
    rcases eq_or_lt_of_le he0 with he | he
    · rw [← he]
      rw [float_of_int_zero, fmul_zero_left, ftrunc_zero]
      rw [show ((0:ℤ) * (10000 - t)) = 0 from by ring, Int.zero_fdiv]
      norm_num
    · have he1Q : (1:ℚ) ≤ (e:ℚ) := by exact_mod_cast he
      have heBQ : (e:ℚ) ≤ 1125899906842624 := by exact_mod_cast heB
      have hu_lb : (1:ℚ)/32768 ≤ val (fsub_one (fdivInt t 10000)) := by
        linarith [huabs.1]
      have hprod_lb : (2:ℚ)^(-(600:ℤ)) ≤
          val (float_of_int e) * val (fsub_one (fdivInt t 10000)) := by
        rw [ha_val]
        have hstep : (1:ℚ)/32768 ≤ (e:ℚ) * val (fsub_one (fdivInt t 10000)) := by
          nlinarith
        exact le_trans two_zpow_neg600_le hstep
      obtain ⟨hperr, hpm⟩ := fmul_err ha_m hum hprod_lb
      rw [ha_val, hL] at hperr
      have hpabs := abs_le.1 hperr
      -- multiplied error bounds, all linear in the monomials e*val u and e*val m
      have hmulu1 := mul_le_mul_of_nonneg_left huabs.1 (by linarith : (0:ℚ) ≤ (e:ℚ))
      have hmulu2 := mul_le_mul_of_nonneg_left huabs.2 (by linarith : (0:ℚ) ≤ (e:ℚ))
      have hmulm1 := mul_le_mul_of_nonneg_left habs.1 (by linarith : (0:ℚ) ≤ (e:ℚ))
      have hmulm2 := mul_le_mul_of_nonneg_left habs.2 (by linarith : (0:ℚ) ≤ (e:ℚ))
      have humul_ub := mul_le_mul_of_nonneg_left
        (by linarith [huabs.2] : val (fsub_one (fdivInt t 10000)) ≤ 2)
        (by linarith : (0:ℚ) ≤ (e:ℚ))
      have hmmul_ub := mul_le_mul_of_nonneg_left hm_le1 (by linarith : (0:ℚ) ≤ (e:ℚ))
      have hmmul_lb : 0 ≤ (e:ℚ) * val (fdivInt t 10000) := by positivity
      have htmul_ub : (e:ℚ) * ((t:ℚ)/10000) ≤ (e:ℚ) := by nlinarith
      have htmul_lb : 0 ≤ (e:ℚ) * ((t:ℚ)/10000) := by positivity
      have hE1_nonneg : 0 ≤ (e:ℚ) * val (fsub_one (fdivInt t 10000)) := by positivity
      have hclose : |val (fmul (float_of_int e) (fsub_one (fdivInt t 10000))) -
          (e:ℚ) * ((10000:ℚ) - t)/10000| ≤ 3/4 := by
        rw [abs_le]
        constructor
        · linarith [hpabs.1, hmulu1, hmulm1, humul_ub, hmmul_ub, htmul_ub, htmul_lb,
            hE1_nonneg, hmmul_lb]
        · linarith [hpabs.2, hmulu2, hmulm2, humul_ub, hmmul_ub, htmul_ub, htmul_lb,
            hE1_nonneg, hmmul_lb]
      rw [ftrunc_eq_floor hpm]
      rw [show ((e * (10000 - t)).fdiv 10000) = ⌊((e * (10000 - t) : ℤ):ℚ)/((10000:ℤ):ℚ)⌋
        from fdiv_eq_floor (by norm_num)]
      have hcast : ((e * (10000 - t) : ℤ):ℚ)/((10000:ℤ):ℚ) = (e:ℚ) * ((10000:ℚ) - t)/10000 := by
        push_cast
        ring
      rw [hcast]
      exact floor_close (lt_of_le_of_lt hclose (by norm_num))

set_option maxHeartbeats 1000000 in
/-- Error analysis of the Maximum-mode slippage computation. -/
lemma slip_max_close (e t : ℤ) (he0 : 0 ≤ e) (heB : e ≤ 1125899906842624)
    (ht0 : 0 ≤ t) (ht1 : t ≤ 10000) :
    |calculate_slippage_amount e t false - (e * (10000 + t)).fdiv 10000| ≤ 1 := by
  show |ftrunc (fmul (float_of_int e) (fadd_one (fdivInt t 10000))) -
    (e * (10000 + t)).fdiv 10000| ≤ 1
  have hL : (2:ℚ)^(-(53:ℤ)) = 1/9007199254740992 := two_zpow_neg53
  have hx0 : (0:ℚ) ≤ (t:ℚ)/10000 := by positivity
  have htQ : (t:ℚ) ≤ 10000 := by exact_mod_cast ht1
  have htQ0 : (0:ℚ) ≤ (t:ℚ) := by exact_mod_cast ht0
  have hx1 : (t:ℚ)/10000 ≤ 1 := by linarith
  have hmerr : |val (fdivInt t 10000) - (t:ℚ)/10000| ≤ (t:ℚ)/10000 * (2:ℚ)^(-(53:ℤ)) := by
    rcases eq_or_lt_of_le ht0 with h | h
    · rw [← h]
      unfold fdivInt
      rw [roundQ_zero]
      norm_num [val]
    · refine roundQ_err h (by norm_num) ?_
      have h1 : (1:ℚ) ≤ (t:ℚ) := by exact_mod_cast h
      have h2 : (1:ℚ)/10000 ≤ (t:ℚ)/10000 := by linarith
      exact le_trans two_zpow_neg600_le (by linarith)
  have hm_le1 : val (fdivInt t 10000) ≤ 1 := roundQ_le_one ht0 (by norm_num) (by omega)
  have hm_m : 0 ≤ (fdivInt t 10000).m := roundQ_m_nonneg _ ht0
  have hm_nonneg : 0 ≤ val (fdivInt t 10000) := val_nonneg_of_m hm_m
  rw [hL] at hmerr
  have habs := abs_le.1 hmerr
  obtain ⟨hverr, hvm⟩ := fadd_one_err hm_m
  rw [hL] at hverr
  have hvabs := abs_le.1 hverr
  have hv_nonneg : 0 ≤ val (fadd_one (fdivInt t 10000)) := val_nonneg_of_m hvm
  have ha_val : val (float_of_int e) = (e:ℚ) := by
    refine float_of_int_exact he0 ?_
    have : (2:ℤ)^53 = 9007199254740992 := by norm_num
    omega
  have ha_m : 0 ≤ (float_of_int e).m := float_of_int_m_nonneg he0
  rcases eq_or_lt_of_le he0 with he | he
  · rw [← he]
    rw [float_of_int_zero, fmul_zero_left, ftrunc_zero]
    rw [show ((0:ℤ) * (10000 + t)) = 0 from by ring, Int.zero_fdiv]
    norm_num
  · have he1Q : (1:ℚ) ≤ (e:ℚ) := by exact_mod_cast he
    have heBQ : (e:ℚ) ≤ 1125899906842624 := by exact_mod_cast heB
    have hv_lb : (1:ℚ)/2 ≤ val (fadd_one (fdivInt t 10000)) := by
      linarith [hvabs.1]
    have hprod_lb : (2:ℚ)^(-(600:ℤ)) ≤
        val (float_of_int e) * val (fadd_one (fdivInt t 10000)) := by
      rw [ha_val]
      have hstep : (1:ℚ)/2 ≤ (e:ℚ) * val (fadd_one (fdivInt t 10000)) := by
        nlinarith
      exact le_trans two_zpow_neg600_le (by linarith)
    obtain ⟨hperr, hpm⟩ := fmul_err ha_m hvm hprod_lb
    rw [ha_val, hL] at hperr
    have hpabs := abs_le.1 hperr
    have hmulv1 := mul_le_mul_of_nonneg_left hvabs.1 (by linarith : (0:ℚ) ≤ (e:ℚ))
    have hmulv2 := mul_le_mul_of_nonneg_left hvabs.2 (by linarith : (0:ℚ) ≤ (e:ℚ))
    have hmulm1 := mul_le_mul_of_nonneg_left habs.1 (by linarith : (0:ℚ) ≤ (e:ℚ))
    have hmulm2 := mul_le_mul_of_nonneg_left habs.2 (by linarith : (0:ℚ) ≤ (e:ℚ))
    have hvmul_ub := mul_le_mul_of_nonneg_left
      (by linarith [hvabs.2] : val (fadd_one (fdivInt t 10000)) ≤ 3)
      (by linarith : (0:ℚ) ≤ (e:ℚ))
    have hmmul_ub := mul_le_mul_of_nonneg_left hm_le1 (by linarith : (0:ℚ) ≤ (e:ℚ))
    have hmmul_lb : 0 ≤ (e:ℚ) * val (fdivInt t 10000) := by positivity
    have htmul_ub : (e:ℚ) * ((t:ℚ)/10000) ≤ (e:ℚ) := by nlinarith
    have htmul_lb : 0 ≤ (e:ℚ) * ((t:ℚ)/10000) := by positivity
    have hE1_nonneg : 0 ≤ (e:ℚ) * val (fadd_one (fdivInt t 10000)) := by positivity
    have hclose : |val (fmul (float_of_int e) (fadd_one (fdivInt t 10000))) -
        (e:ℚ) * ((10000:ℚ) + t)/10000| ≤ 7/8 := by
      rw [abs_le]
      constructor
      · linarith [hpabs.1, hmulv1, hmulm1, hvmul_ub, hmmul_ub, htmul_ub, htmul_lb,
          hE1_nonneg, hmmul_lb]
      · linarith [hpabs.2, hmulv2, hmulm2, hvmul_ub, hmmul_ub, htmul_ub, htmul_lb,
          hE1_nonneg, hmmul_lb]
    rw [ftrunc_eq_floor hpm]
    rw [show ((e * (10000 + t)).fdiv 10000) = ⌊((e * (10000 + t) : ℤ):ℚ)/((10000:ℤ):ℚ)⌋
      from fdiv_eq_floor (by norm_num)]
    have hcast : ((e * (10000 + t) : ℤ):ℚ)/((10000:ℤ):ℚ) = (e:ℚ) * ((10000:ℚ) + t)/10000 := by
      push_cast
      ring
    rw [hcast]
    exact floor_close (lt_of_le_of_lt hclose (by norm_num))

/-- C3 (amended): the slippage bound functions evaluate the spec's floor
formula in binary64 float arithmetic, so the result can differ from the
exact floor by one unit (in either direction), and is within one unit of it
for all amounts up to 2^50; apply_slippage_tolerance computes exactly the
same value as calculate_slippage_amount. -/
theorem c3_slippage_bound_within_one (e t : ℤ) (he0 : 0 ≤ e) (heB : e ≤ 1125899906842624)
    (ht0 : 0 ≤ t) (ht1 : t ≤ 10000) (b : Bool) :
    |calculate_slippage_amount e t b - spec_slippage_bound e t b| ≤ 1 ∧
    apply_slippage_tolerance e t b = calculate_slippage_amount e t b := by
  constructor
  · cases b
    · simpa [spec_slippage_bound] using slip_max_close e t he0 heB ht0 ht1
    · simpa [spec_slippage_bound] using slip_min_close e t he0 heB ht0 ht1
  · rfl

/-- C3 counterexample: at expected_amount 5 and tolerance 8000 bps the float
computation int(5 * (1 - 0.8)) returns 0, while the spec formula
floor(5 * 2000 / 10000) = 1. -/
theorem c3_counterexample :
    calculate_slippage_amount 5 8000 true = 0 ∧ spec_slippage_bound 5 8000 true = 1 :=
  ⟨by decide, by decide⟩

theorem c3_witness :
    |calculate_slippage_amount 1000 500 true - spec_slippage_bound 1000 500 true| ≤ 1 ∧
    apply_slippage_tolerance 1000 500 true = calculate_slippage_amount 1000 500 true :=
  c3_slippage_bound_within_one 1000 500 (by decide) (by decide) (by decide) (by decide) true

/-- C4 (amended): a tolerance of zero basis points is a no-op in both modes
for every amount that binary64 represents exactly, i.e. up to 2^53; above
that the int-to-float conversion rounds the amount itself (see the C4
counterexample). -/
theorem c4_zero_tolerance_identity (e : ℤ) (h0 : 0 ≤ e) (h1 : e ≤ 9007199254740992) :
    calculate_slippage_amount e 0 true = e ∧ calculate_slippage_amount e 0 false = e ∧
    apply_slippage_tolerance e 0 true = e ∧ apply_slippage_tolerance e 0 false = e := by
  have hlit : (2:ℤ)^53 = 9007199254740992 := by norm_num
  have hu_val : val (fsub_one (fdivInt 0 10000)) = 1 := by
    have h : fsub_one (fdivInt 0 10000) = ⟨4503599627370496, -52⟩ := by decide
    rw [h]
    unfold val
    rw [show ((-52:ℤ)) = -((52:ℕ):ℤ) from by norm_num, zpow_neg, zpow_natCast]
    norm_num
  have hu_m : 0 ≤ (fsub_one (fdivInt 0 10000)).m := by decide
  have hv_val : val (fadd_one (fdivInt 0 10000)) = 1 := by
    have h : fadd_one (fdivInt 0 10000) = ⟨4503599627370496, -52⟩ := by decide
    rw [h]
    unfold val
    rw [show ((-52:ℤ)) = -((52:ℕ):ℤ) from by norm_num, zpow_neg, zpow_natCast]
    norm_num
  have hv_m : 0 ≤ (fadd_one (fdivInt 0 10000)).m := by decide
  have key : ∀ u : Fp64, val u = 1 → 0 ≤ u.m →
      ftrunc (fmul (float_of_int e) u) = e := by
    intro u huv hum
    have ha_val : val (float_of_int e) = (e:ℚ) := float_of_int_exact h0 (by omega)
    have ha_m := float_of_int_m_nonneg h0
    have hp_val : val (fmul (float_of_int e) u) = (e:ℚ) :=
      fmul_exact (by rw [ha_val, huv, mul_one]) h0 (by omega)
    have hpm : 0 ≤ (fmul (float_of_int e) u).m :=
      roundDyadic_m_nonneg _ (mul_nonneg ha_m hum)
    rw [ftrunc_eq_floor hpm, hp_val, Int.floor_intCast]
  exact ⟨key _ hu_val hu_m, key _ hv_val hv_m, key _ hu_val hu_m, key _ hv_val hv_m⟩

/-- C4 counterexample: at e = 2^53 + 1 the conversion float(e) rounds to
2^53 (ties to even), so a zero tolerance is not a no-op: both modes return
9007199254740992 instead of 9007199254740993. -/
theorem c4_counterexample :
    calculate_slippage_amount 9007199254740993 0 true = 9007199254740992 ∧
    calculate_slippage_amount 9007199254740993 0 false = 9007199254740992 ∧
    (9007199254740992 : ℤ) ≠ 9007199254740993 :=
  ⟨by decide, by decide, by decide⟩

theorem c4_witness :
    calculate_slippage_amount 1000 0 true = 1000 ∧
    calculate_slippage_amount 1000 0 false = 1000 ∧
    apply_slippage_tolerance 1000 0 true = 1000 ∧
    apply_slippage_tolerance 1000 0 false = 1000 :=
  c4_zero_tolerance_identity 1000 (by decide) (by decide)

/-- C7 (amended): get_progress_percentage returns the float 0.0 when the
total supply is not positive; when the supply is positive and the real token
reserves lie between 0 and the supply, the returned value lies in [0, 100].
For reserves exceeding the supply the clamp only caps from above and the
result is negative (see the C7 counterexample). -/
theorem c7_progress_percentage_range (acct : BondingCurveAccount) :
    (acct.token_total_supply ≤ 0 → get_progress_percentage acct = ⟨0, 0⟩) ∧
    (0 < acct.token_total_supply → 0 ≤ acct.real_token_reserves →
      acct.real_token_reserves ≤ acct.token_total_supply →
      0 ≤ val (get_progress_percentage acct) ∧
      val (get_progress_percentage acct) ≤ 100) := by
  constructor
  · intro h
    unfold get_progress_percentage
    rw [if_pos h]
  · intro hts hrt0 hrtle
    unfold get_progress_percentage
    rw [if_neg (by omega)]
    dsimp only
    have hd_m : 0 ≤ (fdivInt (acct.token_total_supply - acct.real_token_reserves)
        acct.token_total_supply).m :=
      roundQ_m_nonneg _ (by omega)
    have h100_m : 0 ≤ (float_of_int 100).m := float_of_int_m_nonneg (by norm_num)
    have hpm : 0 ≤ (fmul (fdivInt (acct.token_total_supply - acct.real_token_reserves)
        acct.token_total_supply) (float_of_int 100)).m :=
      roundDyadic_m_nonneg _ (mul_nonneg hd_m h100_m)
    split_ifs with hle
    · refine ⟨val_nonneg_of_m hpm, ?_⟩
      have h2 := (fleInt_iff _ 100).1 hle
      exact_mod_cast h2
    · constructor
      · unfold val
        norm_num
      · unfold val
        norm_num

/-- C7 counterexample: a state with total supply 100 and real token reserves
200 yields the value -100.0, outside the claimed range [0, 100] (the clamp
of the source only caps from above). -/
theorem c7_counterexample :
    val (get_progress_percentage ⟨0, 0, 200, 0, 100, false⟩) = -100 := by
  have h : get_progress_percentage ⟨0, 0, 200, 0, 100, false⟩ =
      ⟨-7036874417766400, -46⟩ := by decide
  rw [h]
  unfold val
  rw [show ((-46:ℤ)) = -((46:ℕ):ℤ) from by norm_num, zpow_neg, zpow_natCast]
  norm_num

theorem c7_witness :
    0 ≤ val (get_progress_percentage ⟨0, 0, 50, 0, 100, false⟩) ∧
    val (get_progress_percentage ⟨0, 0, 50, 0, 100, false⟩) ≤ 100 :=
  (c7_progress_percentage_range ⟨0, 0, 50, 0, 100, false⟩).2
    (by decide) (by decide) (by decide)

-- ===========================================================================
-- Routing (C8) and event parsing (C9)
-- ===========================================================================

/-- C8: when no pool offers the requested pair in either orientation, the
routing loop never simulates a swap and returns None rather than raising. -/
theorem c8_find_best_route_no_match (pools : List (String × LiquidityPool))
    (token_in token_out : Nat) (amount_in : Int)
    (h : ∀ pr ∈ pools, pool_matchesB pr.2 token_in token_out = false) :
    find_best_route pools token_in token_out amount_in = .ok none := by
  unfold find_best_route
  suffices haux : ∀ (l : List (String × LiquidityPool)) (best : Option Route) (bao : Int),
      (∀ pr ∈ l, pool_matchesB pr.2 token_in token_out = false) →
      find_best_route_aux token_in token_out amount_in l best bao = .ok best by
    exact haux pools none 0 h
  intro l
  induction l with
  | nil =>
    intro best bao _
    rfl
  | cons hd tl ih =>
    intro best bao hall
    obtain ⟨pid, pool⟩ := hd
    have hmatch : pool_matchesB pool token_in token_out = false :=
      hall (pid, pool) (List.mem_cons_self _ _)
    unfold find_best_route_aux
    rw [if_neg (by rw [hmatch]; simp)]
    exact ih best bao (fun pr hpr => hall pr (List.mem_cons_of_mem _ hpr))

theorem c8_witness :
    find_best_route [("pool_a", ⟨1, 2, 1000, 1000, 0, 100⟩)] 3 4 5 = .ok none :=
  c8_find_best_route_no_match [("pool_a", ⟨1, 2, 1000, 1000, 0, 100⟩)] 3 4 5 (by decide)

lemma hasSub_of_tail {sub : List Char} {c : Char} {rest : List Char}
    (h : hasSub sub rest = true) : hasSub sub (c :: rest) = true := by
  unfold hasSub
  rw [h]
  simp

lemma hasSub_drop {sub : List Char} : ∀ (l : List Char) (k : ℕ),
    hasSub sub (List.drop k l) = true → hasSub sub l = true := by
  intro l
  induction l with
  | nil =>
    intro k h
    simpa using h
  | cons c rest ih =>
    intro k h
    cases k with
    | zero => simpa using h
    | succ k2 => exact hasSub_of_tail (ih k2 h)

lemma splitAfterFirst_hasSub {sep : List Char} : ∀ {l ld : List Char},
    splitAfterFirst sep l = some ld → ∀ {d : List Char},
    hasSub d ld = true → hasSub d l = true := by
  intro l
  induction l with
  | nil =>
    intro ld h d hd
    unfold splitAfterFirst at h
    split_ifs at h
    injection h with h2
    rw [← h2] at hd
    simpa using hd
  | cons c rest ih =>
    intro ld h d hd
    unfold splitAfterFirst at h
    split_ifs at h with hpfx
    · injection h with h2
      rw [← h2] at hd
      exact hasSub_drop _ _ hd
    · exact hasSub_of_tail (ih h hd)

lemma parse_log_loop_none (now : Int) : ∀ l : List PyVal,
    (∀ s, PyVal.pystr s ∈ l → no_event_discriminator s) →
    parse_log_loop now l = .ok none ∨ ∃ err, parse_log_loop now l = .error err := by
  intro l
  induction l with
  | nil =>
    intro _
    exact Or.inl rfl
  | cons lg rest ih =>
    intro hall
    have htail : ∀ s, PyVal.pystr s ∈ rest → no_event_discriminator s :=
      fun s hs => hall s (List.mem_cons_of_mem _ hs)
    cases lg with
    | pystr s =>
      obtain ⟨h1, h2, h3⟩ := hall s (List.mem_cons_self _ _)
      unfold parse_log_loop
      dsimp only
      split_ifs with hpl
      · cases hsp : splitAfterFirst ("Program log: ".toList) s.toList with
        | none =>
          exact Or.inr ⟨.indexError, rfl⟩
        | some ld =>
          dsimp only
          have hd1 : ¬ (hasSub ("CreateEvent".toList) ld = true) := by
            intro hc
            have hlift := splitAfterFirst_hasSub hsp hc
            rw [h1] at hlift
            exact Bool.noConfusion hlift
          have hd2 : ¬ (hasSub ("TradeEvent".toList) ld = true) := by
            intro hc
            have hlift := splitAfterFirst_hasSub hsp hc
            rw [h2] at hlift
            exact Bool.noConfusion hlift
          have hd3 : ¬ (hasSub ("CompleteEvent".toList) ld = true) := by
            intro hc
            have hlift := splitAfterFirst_hasSub hsp hc
            rw [h3] at hlift
            exact Bool.noConfusion hlift
          rw [if_neg hd1, if_neg hd2, if_neg hd3]
          exact ih htail
      · exact ih htail
    | pynone => exact Or.inr ⟨.typeError, rfl⟩
    | pybool b => exact Or.inr ⟨.typeError, rfl⟩
    | pyint n => exact Or.inr ⟨.typeError, rfl⟩
    | pylist elems => exact Or.inr ⟨.typeError, rfl⟩
    | pydict entries => exact Or.inr ⟨.typeError, rfl⟩

/-- C9: a payload none of whose program-log lines contains one of the three
event discriminators makes the parser return None; any malformed shape along
the way raises inside the try block and is converted to the same None return,
so the classifier never propagates an exception. -/
theorem c9_unrecognized_payload_returns_none (now : Int) (message : PyVal)
    (h : ∀ s, PyVal.pystr s ∈ program_log_lines message → no_event_discriminator s) :
    parse_log_message now message = none := by
  unfold parse_log_message parse_log_message_body
  dsimp only
  split_ifs with htruthy
  · cases hit : py_iterate (get_logs (get_attr_result message)) with
    | error e => rfl
    | ok logs =>
      dsimp only
      have hlines : ∀ s, PyVal.pystr s ∈ logs → no_event_discriminator s := by
        intro s hs
        apply h
        unfold program_log_lines
        rw [hit]
        exact hs
      rcases parse_log_loop_none now logs hlines with hok | ⟨err, herr⟩
      · rw [hok]
      · rw [herr]
  · rfl

theorem c9_witness :
    parse_log_message 7 (.pydict [("result", .pydict [("logs",
      .pylist [.pystr "Program log: hello world", .pystr "no marker here"])])]) = none := by
  refine c9_unrecognized_payload_returns_none 7 _ ?_
  intro s hs
  have hmem : s = "Program log: hello world" ∨ s = "no marker here" := by
    simpa [program_log_lines, py_iterate, get_logs, get_attr_result, dict_get] using hs
  rcases hmem with h | h <;> subst h <;> exact ⟨by decide, by decide, by decide⟩
